import Mathlib

/-!
Verification of the speechart repository's specification claims.

The definitions below are shallow embeddings of the Python sources:

* `language_dfas.py` — the `LanguageDFA` family (states, memoized transitions,
  success states, additive state colours) and the `PhraseDFA` override.
* `dfa.py` — the earlier `MorphemeDFA` character automaton.
* `morpheme_parser.py` — `derivative_word` and `compress_etymologies`.
* `language_parser.py` — the JSON-backed cache addition operations
  (`add_ipa`, `add_etymology`, `add_inflection`), `init_lexicon`,
  `common_words`, `init_alphabet`, and `get_lang_code`.
* `ipa_parser.py` / `ipa_word.py` — the syllable segmentation pipeline
  (`clean_ipa`, `next_phoneme`, `next_syllable`, `split_syllables`,
  `break_syllable`, `break_syllables`, `add_syllables`).

Python `dict`s are modeled as association lists, Python `set`s of integers as
`Finset ℕ`, machine integers as `ℕ` with explicit `% 2 ^ 64` where CPython's
64-bit string hashing matters, and fallible code (Python exceptions) as
`Option`/`Except` results.
-/

set_option autoImplicit false

namespace Speechart

/-! ### Association-list maps (Python dicts) -/

/-- Python `d[k]` / `d.get(k)`: first-match lookup in an association list. -/
def dlookup {α β : Type} [DecidableEq α] (k : α) : List (α × β) → Option β
  | [] => none
  | (k', v) :: rest => if k' = k then some v else dlookup k rest

/-- Python `d[k] = v`: replace the binding of `k` if present, else append it. -/
def dset {α β : Type} [DecidableEq α] (k : α) (v : β) : List (α × β) → List (α × β)
  | [] => [(k, v)]
  | (k', v') :: rest => if k' = k then (k', v) :: rest else (k', v') :: dset k v rest

theorem dlookup_dset_self {α β : Type} [DecidableEq α] (k : α) (v : β)
    (m : List (α × β)) : dlookup k (dset k v m) = some v := by
  induction m with
  | nil => simp [dlookup, dset]
  | cons hd tl ih =>
      obtain ⟨k', v'⟩ := hd
      by_cases h : k' = k <;> simp [dlookup, dset, h, ih]

theorem dlookup_dset_ne {α β : Type} [DecidableEq α] {k p : α} (v : β)
    (m : List (α × β)) (h : p ≠ k) : dlookup p (dset k v m) = dlookup p m := by
  have hkp : k ≠ p := fun hk => h hk.symm
  induction m with
  | nil => simp [dlookup, dset, hkp]
  | cons hd tl ih =>
      obtain ⟨k', v'⟩ := hd
      by_cases hk : k' = k
      · subst hk
        simp [dlookup, dset, hkp]
      · by_cases hp : k' = p
        · subst hp
          simp [dlookup, dset, hk, h]
        · simp [dlookup, dset, hk, hp, ih]

/-! ### `language_dfas.py`: the `LanguageDFA` class

Transition symbols are Python strings (single characters for the character
automata, whole word tokens for the phrase automaton), so the symbol type is
`String`.  The fields are exactly the mutable state touched by the modeled
methods of `LanguageDFA.__init__`; fonts and the parser superclass state are
presentation-only and are not consulted by any claim.  -/

/-- An RGBA colour quadruple (Python 4-tuples of ints). -/
abbrev RGBA := ℕ × ℕ × ℕ × ℕ

structure LanguageDFA where
  states : Finset ℕ
  start_states : Finset ℕ
  success_states : List (ℕ × Finset (Option String))
  state_colours : List (ℕ × Option RGBA)
  transitions : List ((ℕ × String) × ℕ)
  current_state : ℕ
  deriving DecidableEq

/-- `LanguageDFA.__init__`: start state 0, `states = {0}`,
`start_states = states.copy()`, empty dictionaries. -/
def initLanguageDFA : LanguageDFA :=
  { states := {0}
    start_states := {0}
    success_states := []
    state_colours := []
    transitions := []
    current_state := 0 }

/-- `LanguageDFA.clear`: reset states and all dictionaries
(`current_state` is not reset by the source). -/
def LanguageDFA.clear (dfa : LanguageDFA) : LanguageDFA :=
  { dfa with
    states := {0}
    start_states := {0}
    success_states := []
    state_colours := []
    transitions := [] }

/-- `LanguageDFA.new_state`: `state = len(self.states); self.states.add(state)`. -/
def LanguageDFA.new_state (dfa : LanguageDFA) : LanguageDFA × ℕ :=
  let state := dfa.states.card
  ({ dfa with states := insert state dfa.states }, state)

/-- The `POS_RGB` class table. -/
def POS_RGB : List (String × RGBA) :=
  [("v", (225, 0, 0, 125)),
   ("n", (0, 225, 0, 125)),
   ("a", (0, 0, 200, 125)),
   ("s", (0, 0, 200, 125)),
   ("r", (175, 0, 175, 125)),
   ("o", (0, 175, 175, 125))]

/-- The `POS_KEY` class table. -/
def POS_KEY : List (String × String) :=
  [("Noun", "n"), ("Verb", "v"), ("Adjective", "a"), ("Adverb", "r")]

/-- `LanguageDFA.pos_rgb`: `None` maps to `None`; otherwise look the tag up in
`POS_RGB`, falling back through `POS_KEY`, defaulting to the `'o'` colour. -/
def pos_rgb (pos : Option String) : Option RGBA :=
  match pos with
  | none => none
  | some p =>
      match dlookup p POS_RGB with
      | some c => some c
      | none =>
          match dlookup p POS_KEY with
          | some k =>
              match dlookup k POS_RGB with
              | some c => some c
              | none => dlookup "o" POS_RGB
          | none => dlookup "o" POS_RGB

/-- One channel of the additive blend `max(100, min(existing + incoming, 225))`. -/
def blendChannel (c p : ℕ) : ℕ := max 100 (min (c + p) 225)

/-- The four-channel additive blend used by `add_state_colour`. -/
def blend (c p : RGBA) : RGBA :=
  (blendChannel c.1 p.1, blendChannel c.2.1 p.2.1,
   blendChannel c.2.2.1 p.2.2.1, blendChannel c.2.2.2 p.2.2.2)

/-- `LanguageDFA.add_state_colour`.  When `pos_rgb(pos)` is `None` the source
stores the Python value `None` under the state.  Otherwise it runs
`setdefault(state, (0,0,0,0))`, reads the stored value back, and indexes it:
if the stored value is the Python `None`, `colour[i]` raises `TypeError`,
modeled as the `none` result. -/
def add_state_colour (dfa : LanguageDFA) (state : ℕ) (pos : Option String) :
    Option LanguageDFA :=
  match pos_rgb pos with
  | none => some { dfa with state_colours := dset state none dfa.state_colours }
  | some pc =>
      match (dlookup state dfa.state_colours).getD (some (0, 0, 0, 0)) with
      | none => none
      | some c =>
          some { dfa with state_colours := dset state (some (blend c pc)) dfa.state_colours }

/-- `LanguageDFA.add_success_state`: record the tag, then recolour. -/
def add_success_state (dfa : LanguageDFA) (state : ℕ) (pos : Option String) :
    Option LanguageDFA :=
  let tags := (dlookup state dfa.success_states).getD ∅
  let dfa' := { dfa with success_states := dset state (insert pos tags) dfa.success_states }
  add_state_colour dfa' state pos

/-- `LanguageDFA.transition`: return the memoized destination for `(state, char)`,
else allocate a new state and record the pair. -/
def LanguageDFA.transition (dfa : LanguageDFA) (state : ℕ) (char : String) :
    LanguageDFA × ℕ :=
  match dlookup (state, char) dfa.transitions with
  | some next => (dfa, next)
  | none =>
      let (dfa', n) := dfa.new_state
      ({ dfa' with transitions := dset (state, char) n dfa'.transitions }, n)

/-- `LanguageDFA.transition_all`: thread the current state through `transition`,
breaking early as soon as a destination lands in `start_states`. -/
def LanguageDFA.transition_all (dfa : LanguageDFA) (state : ℕ) :
    List String → LanguageDFA × ℕ
  | [] => (dfa, state)
  | c :: cs =>
      let (dfa', s') := dfa.transition state c
      if s' ∈ dfa'.start_states then (dfa', s')
      else dfa'.transition_all s' cs

/-- Python iteration over a string yields its characters as 1-character strings
(`unicodize` converts byte strings to unicode and is the identity here). -/
def charsOf (w : String) : List String :=
  w.toList.map (fun c => String.mk [c])

/-- `LanguageDFA.add_word_pair`: transition through the word's characters from
`current_state`, mark the landing state successful with the pair's
part-of-speech, reset `current_state` to 0.  The `none` result is the
`TypeError` that `add_state_colour` can raise. -/
def add_word_pair (dfa : LanguageDFA) (wp : String × Option String) :
    Option LanguageDFA :=
  let run := dfa.transition_all dfa.current_state (charsOf wp.1)
  let dfa2 := { run.1 with current_state := run.2 }
  match add_success_state dfa2 run.2 wp.2 with
  | none => none
  | some dfa3 => some { dfa3 with current_state := 0 }

/-! ### Basic lemmas about `transition` and friends -/

theorem dlookup_mem {α β : Type} [DecidableEq α] {k : α} {v : β} {m : List (α × β)}
    (h : dlookup k m = some v) : (k, v) ∈ m := by
  induction m with
  | nil => simp [dlookup] at h
  | cons hd tl ih =>
      obtain ⟨k', v'⟩ := hd
      by_cases hk : k' = k
      · subst hk
        simp [dlookup] at h
        simp [h]
      · simp [dlookup, hk] at h
        simp [ih h]

theorem mem_dset {α β : Type} [DecidableEq α] {q : α × β} {k : α} {v : β}
    {m : List (α × β)} (h : q ∈ dset k v m) : q = (k, v) ∨ q ∈ m := by
  induction m with
  | nil => simpa [dset] using h
  | cons hd tl ih =>
      obtain ⟨k', v'⟩ := hd
      by_cases hk : k' = k
      · subst hk
        simp [dset] at h
        rcases h with h | h
        · exact Or.inl (by simp [h])
        · exact Or.inr (by simp [h])
      · simp [dset, hk] at h
        rcases h with h | h
        · exact Or.inr (by simp [h])
        · rcases ih h with h' | h'
          · exact Or.inl h'
          · exact Or.inr (by simp [h'])

theorem transition_lookup (dfa : LanguageDFA) (s : ℕ) (c : String) :
    dlookup (s, c) (dfa.transition s c).1.transitions = some (dfa.transition s c).2 := by
  unfold LanguageDFA.transition
  cases h : dlookup (s, c) dfa.transitions with
  | some d => simp [h]
  | none => simp [h, LanguageDFA.new_state, dlookup_dset_self]

theorem transition_start_states (dfa : LanguageDFA) (s : ℕ) (c : String) :
    (dfa.transition s c).1.start_states = dfa.start_states := by
  unfold LanguageDFA.transition
  cases h : dlookup (s, c) dfa.transitions with
  | some d => simp [h]
  | none => simp [h, LanguageDFA.new_state]

theorem transition_preserves_lookup {dfa : LanguageDFA} {p : ℕ × String} {d : ℕ}
    (s : ℕ) (c : String) (h : dlookup p dfa.transitions = some d) :
    dlookup p (dfa.transition s c).1.transitions = some d := by
  unfold LanguageDFA.transition
  cases hc : dlookup (s, c) dfa.transitions with
  | some d' => simpa [hc] using h
  | none =>
      have hne : p ≠ (s, c) := by
        intro he
        rw [he, hc] at h
        exact Option.noConfusion h
      simpa [hc, LanguageDFA.new_state, dlookup_dset_ne _ _ hne] using h

theorem transition_all_nil (dfa : LanguageDFA) (s : ℕ) :
    dfa.transition_all s [] = (dfa, s) := rfl

theorem transition_all_cons (dfa : LanguageDFA) (s : ℕ) (c : String) (cs : List String) :
    dfa.transition_all s (c :: cs) =
      if (dfa.transition s c).2 ∈ (dfa.transition s c).1.start_states
      then ((dfa.transition s c).1, (dfa.transition s c).2)
      else (dfa.transition s c).1.transition_all (dfa.transition s c).2 cs := rfl

theorem transition_eq_of_lookup {dfa : LanguageDFA} {s : ℕ} {c : String} {d : ℕ}
    (h : dlookup (s, c) dfa.transitions = some d) : dfa.transition s c = (dfa, d) := by
  unfold LanguageDFA.transition
  rw [h]

theorem transitionAll_start_states (cs : List String) (dfa : LanguageDFA) (s : ℕ) :
    (dfa.transition_all s cs).1.start_states = dfa.start_states := by
  induction cs generalizing dfa s with
  | nil => rfl
  | cons c cs ih =>
      rw [transition_all_cons]
      split_ifs with hb
      · exact transition_start_states dfa s c
      · rw [ih]
        exact transition_start_states dfa s c

theorem transitionAll_preserves_lookup (cs : List String) (dfa : LanguageDFA) (s : ℕ)
    {p : ℕ × String} {d : ℕ} (h : dlookup p dfa.transitions = some d) :
    dlookup p (dfa.transition_all s cs).1.transitions = some d := by
  induction cs generalizing dfa s with
  | nil => exact h
  | cons c cs ih =>
      rw [transition_all_cons]
      split_ifs with hb
      · exact transition_preserves_lookup s c h
      · exact ih _ _ (transition_preserves_lookup s c h)

/-- Retracing: if a run of `transition_all` produced `(dfa₁, s₁)`, then any
automaton whose transition table contains all of `dfa₁`'s recorded pairs and
whose start states agree retraces the same path without changing itself. -/
theorem transitionAll_retrace (cs : List String) (dfa : LanguageDFA) (s : ℕ)
    (dfa₂ : LanguageDFA)
    (hsup : ∀ p d, dlookup p (dfa.transition_all s cs).1.transitions = some d →
      dlookup p dfa₂.transitions = some d)
    (hstart : dfa₂.start_states = dfa.start_states) :
    dfa₂.transition_all s cs = (dfa₂, (dfa.transition_all s cs).2) := by
  induction cs generalizing dfa dfa₂ s with
  | nil => rfl
  | cons c cs ih =>
      have hstep : dlookup (s, c) (dfa.transition s c).1.transitions
          = some (dfa.transition s c).2 := transition_lookup dfa s c
      rw [transition_all_cons] at hsup
      rw [transition_all_cons dfa s c cs, transition_all_cons dfa₂ s c cs]
      by_cases hb : (dfa.transition s c).2 ∈ (dfa.transition s c).1.start_states
      · rw [if_pos hb] at hsup
        have hlk : dlookup (s, c) dfa₂.transitions = some (dfa.transition s c).2 :=
          hsup _ _ hstep
        have hb2 : (dfa.transition s c).2 ∈ dfa₂.start_states := by
          rw [hstart, ← transition_start_states dfa s c]
          exact hb
        rw [if_pos hb]
        simp only [transition_eq_of_lookup hlk]
        rw [if_pos hb2]
      · rw [if_neg hb] at hsup
        have hlk : dlookup (s, c) dfa₂.transitions = some (dfa.transition s c).2 :=
          hsup _ _ (transitionAll_preserves_lookup cs _ _ hstep)
        have hb2 : (dfa.transition s c).2 ∉ dfa₂.start_states := by
          rw [hstart, ← transition_start_states dfa s c]
          exact hb
        rw [if_neg hb]
        simp only [transition_eq_of_lookup hlk]
        rw [if_neg hb2]
        exact ih _ _ _ hsup (by rw [hstart, ← transition_start_states dfa s c])

/-! ### Lemmas about success states and colours -/

theorem pos_rgb_isSome (p : String) : ∃ c, pos_rgb (some p) = some c := by
  unfold pos_rgb
  cases h1 : dlookup p POS_RGB with
  | some c => exact ⟨c, by simp [h1]⟩
  | none =>
      cases h2 : dlookup p POS_KEY with
      | some k =>
          cases h3 : dlookup k POS_RGB with
          | some c => exact ⟨c, by simp [h1, h2, h3]⟩
          | none => exact ⟨(0, 175, 175, 125), by simp [h1, h2, h3]; rfl⟩
      | none => exact ⟨(0, 175, 175, 125), by simp [h1, h2]; rfl⟩

theorem add_state_colour_fields {dfa d : LanguageDFA} {s : ℕ} {pos : Option String}
    (h : add_state_colour dfa s pos = some d) :
    d.transitions = dfa.transitions ∧ d.start_states = dfa.start_states ∧
      d.states = dfa.states ∧ d.current_state = dfa.current_state ∧
      d.success_states = dfa.success_states := by
  unfold add_state_colour at h
  cases hp : pos_rgb pos with
  | none =>
      rw [hp] at h
      cases h
      exact ⟨rfl, rfl, rfl, rfl, rfl⟩
  | some pc =>
      rw [hp] at h
      cases hc : (dlookup s dfa.state_colours).getD (some (0, 0, 0, 0)) with
      | none => rw [hc] at h; exact Option.noConfusion h
      | some c =>
          rw [hc] at h
          cases h
          exact ⟨rfl, rfl, rfl, rfl, rfl⟩

theorem add_success_state_fields {dfa d : LanguageDFA} {s : ℕ} {pos : Option String}
    (h : add_success_state dfa s pos = some d) :
    d.transitions = dfa.transitions ∧ d.start_states = dfa.start_states ∧
      d.states = dfa.states ∧ d.current_state = dfa.current_state := by
  unfold add_success_state at h
  have := add_state_colour_fields h
  exact ⟨this.1, this.2.1, this.2.2.1, this.2.2.2.1⟩

/-- After a successful `add_state_colour`, the state's stored colour is either
the Python `None` (when the part of speech was absent) or an actual tuple. -/
theorem add_state_colour_result {dfa d : LanguageDFA} {s : ℕ} {pos : Option String}
    (h : add_state_colour dfa s pos = some d) :
    (pos = none ∧ dlookup s d.state_colours = some none) ∨
      ∃ c, dlookup s d.state_colours = some (some c) := by
  unfold add_state_colour at h
  cases hp : pos_rgb pos with
  | none =>
      rw [hp] at h
      cases h
      left
      refine ⟨?_, by simp [dlookup_dset_self]⟩
      cases pos with
      | none => rfl
      | some p =>
          obtain ⟨c, hc⟩ := pos_rgb_isSome p
          rw [hc] at hp
          exact Option.noConfusion hp
  | some pc =>
      rw [hp] at h
      cases hc : (dlookup s dfa.state_colours).getD (some (0, 0, 0, 0)) with
      | none => rw [hc] at h; exact Option.noConfusion h
      | some c =>
          rw [hc] at h
          cases h
          right
          refine ⟨blend c pc, ?_⟩
          simp [dlookup_dset_self]

/-- `add_success_state` with an absent part of speech always succeeds and
stores the Python `None` as the state's colour. -/
theorem add_success_state_none (dfa : LanguageDFA) (s : ℕ) :
    add_success_state dfa s none =
      some { dfa with
        success_states :=
          dset s (insert none ((dlookup s dfa.success_states).getD ∅)) dfa.success_states,
        state_colours := dset s none dfa.state_colours } := rfl

/-- `add_success_state` with a present part of speech succeeds whenever the
state's stored colour is an actual tuple. -/
theorem add_success_state_of_colour {dfa : LanguageDFA} {s : ℕ} {p : String}
    {pc c : RGBA} (hpc : pos_rgb (some p) = some pc)
    (hc : dlookup s dfa.state_colours = some (some c)) :
    add_success_state dfa s (some p) =
      some { dfa with
        success_states :=
          dset s (insert (some p) ((dlookup s dfa.success_states).getD ∅)) dfa.success_states,
        state_colours := dset s (some (blend c pc)) dfa.state_colours } := by
  unfold add_success_state add_state_colour
  simp only [hpc, hc, Option.getD_some]

/-- A second `add_success_state` with the same tag cannot raise once a first
one succeeded, and it touches neither states nor transitions. -/
theorem add_success_state_again {dfa d : LanguageDFA} {s : ℕ} {pos : Option String}
    (h : add_success_state dfa s pos = some d) :
    ∃ d', add_success_state d s pos = some d' ∧ d'.transitions = d.transitions ∧
      d'.start_states = d.start_states ∧ d'.states = d.states ∧
      d'.current_state = d.current_state := by
  have hres : (pos = none ∧ dlookup s d.state_colours = some none) ∨
      ∃ c, dlookup s d.state_colours = some (some c) := by
    unfold add_success_state at h
    exact add_state_colour_result h
  cases pos with
  | none => exact ⟨_, add_success_state_none d s, rfl, rfl, rfl, rfl⟩
  | some p =>
      rcases hres with ⟨hn, _⟩ | ⟨c, hc⟩
      · exact Option.noConfusion hn
      · obtain ⟨pc, hpc⟩ := pos_rgb_isSome p
        exact ⟨_, add_success_state_of_colour hpc hc, rfl, rfl, rfl, rfl⟩

/-- Success of `add_success_state` only needs the state's stored colour to be
either absent or an actual tuple (or the tag to be absent). -/
theorem add_success_state_succeeds {dfa : LanguageDFA} {s : ℕ} {pos : Option String}
    (hcond : pos = none ∨ ∃ c, dlookup s dfa.state_colours = some (some c)) :
    ∃ d', add_success_state dfa s pos = some d' ∧ d'.transitions = dfa.transitions ∧
      d'.start_states = dfa.start_states ∧ d'.states = dfa.states ∧
      d'.current_state = dfa.current_state := by
  cases pos with
  | none => exact ⟨_, add_success_state_none dfa s, rfl, rfl, rfl, rfl⟩
  | some p =>
      rcases hcond with hn | ⟨c, hc⟩
      · exact Option.noConfusion hn
      · obtain ⟨pc, hpc⟩ := pos_rgb_isSome p
        exact ⟨_, add_success_state_of_colour hpc hc, rfl, rfl, rfl, rfl⟩

theorem add_word_pair_eq (dfa : LanguageDFA) (wp : String × Option String) :
    add_word_pair dfa wp =
      (add_success_state
          { (dfa.transition_all dfa.current_state (charsOf wp.1)).1 with
            current_state := (dfa.transition_all dfa.current_state (charsOf wp.1)).2 }
          (dfa.transition_all dfa.current_state (charsOf wp.1)).2 wp.2).map
        (fun d => { d with current_state := 0 }) := by
  simp only [add_word_pair]
  cases add_success_state
      { (dfa.transition_all dfa.current_state (charsOf wp.1)).1 with
        current_state := (dfa.transition_all dfa.current_state (charsOf wp.1)).2 }
      (dfa.transition_all dfa.current_state (charsOf wp.1)).2 wp.2 <;> rfl

/-- C1.  `transition` on a recorded `(state, symbol)` pair returns the recorded
destination and leaves the automaton (in particular its state set) untouched;
repeating `add_word_pair` on the same pair from the usual `current_state = 0`
configuration succeeds again and allocates no further states. -/
theorem c1_transition_memoized_readd_no_new_states :
    (∀ (dfa : LanguageDFA) (s : ℕ) (c : String) (d : ℕ),
        dlookup (s, c) dfa.transitions = some d → dfa.transition s c = (dfa, d)) ∧
    (∀ (dfa : LanguageDFA) (wp : String × Option String) (d₁ : LanguageDFA),
        dfa.current_state = 0 → add_word_pair dfa wp = some d₁ →
        ∃ d₂, add_word_pair d₁ wp = some d₂ ∧ d₂.states = d₁.states) := by
  constructor
  · intro dfa s c d h
    exact transition_eq_of_lookup h
  · intro dfa wp d₁ hcs h
    rw [add_word_pair_eq] at h
    set run := dfa.transition_all dfa.current_state (charsOf wp.1) with hrun
    cases hadd : add_success_state { run.1 with current_state := run.2 } run.2 wp.2 with
    | none => rw [hadd] at h; exact Option.noConfusion h
    | some dfa3 =>
        rw [hadd] at h
        have hd₁ : d₁ = { dfa3 with current_state := 0 } := by
          cases h
          rfl
        have hfields := add_success_state_fields hadd
        -- the second run retraces the same path and ends in the same state
        have htrans₁ : d₁.transitions = run.1.transitions := by
          rw [hd₁]
          exact hfields.1
        have hstart₁ : d₁.start_states = dfa.start_states := by
          rw [hd₁]
          have := hfields.2.1
          simp only [hrun] at this ⊢
          rw [this]
          exact transitionAll_start_states _ dfa _
        have hretrace : d₁.transition_all dfa.current_state (charsOf wp.1) = (d₁, run.2) := by
          apply transitionAll_retrace
          · intro p d hp
            rw [htrans₁]
            exact hp
          · exact hstart₁
        have hcolour : wp.2 = none ∨
            ∃ c, dlookup run.2 ({ d₁ with current_state := run.2 }).state_colours
              = some (some c) := by
          have hres := by
            unfold add_success_state at hadd
            exact add_state_colour_result hadd
          rcases hres with ⟨hn, _⟩ | ⟨c, hc⟩
          · exact Or.inl hn
          · right
            refine ⟨c, ?_⟩
            show dlookup run.2 d₁.state_colours = some (some c)
            rw [hd₁]
            exact hc
        obtain ⟨d', hd', htr', hst', hsts', hcur'⟩ := add_success_state_succeeds hcolour
        refine ⟨{ d' with current_state := 0 }, ?_, ?_⟩
        · rw [add_word_pair_eq]
          have hcs₁ : d₁.current_state = 0 := by
            rw [hd₁]
          rw [hcs₁, ← hcs, hretrace]
          simp only [hd']
          rfl
        · show d'.states = d₁.states
          rw [hsts']

/-- C1 witness: inserting `("ab", Noun)` into a fresh automaton twice. -/
theorem c1_witness :
    initLanguageDFA.current_state = 0 ∧
    add_word_pair initLanguageDFA ("ab", some "Noun")
      = some ((add_word_pair initLanguageDFA ("ab", some "Noun")).getD initLanguageDFA) ∧
    ∃ d₂,
      add_word_pair ((add_word_pair initLanguageDFA ("ab", some "Noun")).getD initLanguageDFA)
          ("ab", some "Noun") = some d₂ ∧
        d₂.states
          = ((add_word_pair initLanguageDFA ("ab", some "Noun")).getD initLanguageDFA).states := by
  refine ⟨rfl, by decide, ?_⟩
  exact c1_transition_memoized_readd_no_new_states.2 initLanguageDFA ("ab", some "Noun") _
    rfl (by decide)

/-! ### C10: the early break in `transition_all` never fires without
`add_start_state` -/

/-- Invariant of every `LanguageDFA` on which `add_start_state` was never called
(the base class does not even define it): the start states are exactly `{0}`,
state 0 exists, and every recorded transition destination is nonzero. -/
def WellFormed (dfa : LanguageDFA) : Prop :=
  dfa.start_states = {0} ∧ 0 ∈ dfa.states ∧ ∀ p ∈ dfa.transitions, p.2 ≠ 0

instance : DecidablePred WellFormed := fun dfa => by
  unfold WellFormed
  infer_instance

/-- The fold of `transition` over a whole symbol sequence with no early exit:
what `transition_all` computes when the break never fires. -/
def LanguageDFA.transition_all_full (dfa : LanguageDFA) (state : ℕ) :
    List String → LanguageDFA × ℕ
  | [] => (dfa, state)
  | c :: cs => (dfa.transition state c).1.transition_all_full (dfa.transition state c).2 cs

theorem transition_wf {dfa : LanguageDFA} (s : ℕ) (c : String) (h : WellFormed dfa) :
    WellFormed (dfa.transition s c).1 ∧ (dfa.transition s c).2 ≠ 0 := by
  obtain ⟨hstart, hzero, htrans⟩ := h
  unfold LanguageDFA.transition
  cases hc : dlookup (s, c) dfa.transitions with
  | some d =>
      refine ⟨⟨hstart, hzero, htrans⟩, ?_⟩
      exact htrans _ (dlookup_mem hc)
  | none =>
      have hcard : dfa.states.card ≠ 0 := by
        simp only [ne_eq, Finset.card_eq_zero]
        intro he
        rw [he] at hzero
        exact absurd hzero (Finset.not_mem_empty 0)
      refine ⟨⟨hstart, ?_, ?_⟩, hcard⟩
      · exact Finset.mem_insert_of_mem hzero
      · intro p hp
        rcases mem_dset hp with hp' | hp'
        · rw [hp']
          exact hcard
        · exact htrans _ hp'

/-- C10.  In any automaton of the base `LanguageDFA` family whose
`add_start_state` has never been called, the start-state set is `{0}`, every
transition destination is nonzero (state 0 never acquires an incoming
transition), this is preserved by `transition`, and consequently the early
break in `transition_all` never fires: the fold consumes its entire input. -/
theorem c10_break_never_fires :
    WellFormed initLanguageDFA ∧
    (∀ (dfa : LanguageDFA) (s : ℕ) (c : String), WellFormed dfa →
      WellFormed (dfa.transition s c).1 ∧ (dfa.transition s c).2 ≠ 0) ∧
    (∀ (dfa : LanguageDFA) (s : ℕ) (cs : List String), WellFormed dfa →
      dfa.transition_all s cs = dfa.transition_all_full s cs) := by
  refine ⟨⟨rfl, by simp [initLanguageDFA], by simp [initLanguageDFA]⟩,
    fun dfa s c h => transition_wf s c h, ?_⟩
  intro dfa s cs h
  induction cs generalizing dfa s with
  | nil => rfl
  | cons c cs ih =>
      obtain ⟨hwf', hne⟩ := transition_wf s c h
      have hnotin : (dfa.transition s c).2 ∉ (dfa.transition s c).1.start_states := by
        rw [hwf'.1]
        simp [hne]
      rw [transition_all_cons, if_neg hnotin]
      show _ = (dfa.transition s c).1.transition_all_full (dfa.transition s c).2 cs
      exact ih _ _ hwf'

/-- C10 witness: a fresh automaton is well-formed and a two-symbol run consumes
both symbols. -/
theorem c10_witness :
    WellFormed initLanguageDFA ∧
    initLanguageDFA.transition_all 0 ["a", "b"]
      = initLanguageDFA.transition_all_full 0 ["a", "b"] := by
  refine ⟨by decide, ?_⟩
  exact c10_break_never_fires.2.2 initLanguageDFA 0 ["a", "b"] (by decide)

/-! ### C4: state ids across `clear` -/

/-- C4 counterexample: the first id allocated after a `clear` equals the first
id allocated before it (both are 1), so ids handed out after a `clear` are not
distinct from those handed out before — `clear` resets the allocation counter. -/
theorem c4_counterexample :
    ((initLanguageDFA.new_state.1.clear).new_state).2 = (initLanguageDFA.new_state).2 ∧
      (initLanguageDFA.new_state).2 = 1 := by
  decide

/-- C4 amended.  `new_state()` always allocates `count(states)`; while the state
set has the sequential shape `{0, …, n−1}` the allocated id is fresh and the
set grows to `{0, …, n}` (so ids are monotonic and never reused in any run
without `clear`); but `clear` resets the state set to `{0}`, so ids allocated
after a `clear` restart from 1 and repeat earlier ids. -/
theorem c4_new_state_sequential_clear_resets :
    (∀ dfa : LanguageDFA, dfa.new_state.2 = dfa.states.card) ∧
    (∀ (dfa : LanguageDFA) (n : ℕ), dfa.states = Finset.range n →
      dfa.new_state.2 ∉ dfa.states ∧ dfa.new_state.1.states = Finset.range (n + 1)) ∧
    (∀ dfa : LanguageDFA, dfa.clear.states = {0}) ∧
    ((initLanguageDFA.new_state.1.clear).new_state).2 = (initLanguageDFA.new_state).2 := by
  refine ⟨fun dfa => rfl, ?_, fun dfa => rfl, by decide⟩
  intro dfa n hn
  have hcard : dfa.states.card = n := by rw [hn, Finset.card_range]
  constructor
  · show dfa.states.card ∉ dfa.states
    rw [hcard, hn]
    exact Finset.not_mem_range_self
  · show insert dfa.states.card dfa.states = Finset.range (n + 1)
    rw [hcard, hn, Finset.range_succ]

/-- C4 witness: the amended theorem applied to the fresh automaton, whose state
set is `{0} = range 1`. -/
theorem c4_witness :
    initLanguageDFA.states = Finset.range 1 ∧
    initLanguageDFA.new_state.2 ∉ initLanguageDFA.states ∧
    initLanguageDFA.new_state.1.states = Finset.range 2 := by
  refine ⟨by decide, ?_⟩
  exact c4_new_state_sequential_clear_resets.2.1 initLanguageDFA 1 (by decide)

/-! ### C2: the colour-channel invariant -/

/-- A sequence of `add_success_state` calls targeting one state, as in repeated
word insertions landing on the same success state. -/
def applyPosSeq (dfa : LanguageDFA) (state : ℕ) : List (Option String) → Option LanguageDFA
  | [] => some dfa
  | p :: ps =>
      match add_success_state dfa state p with
      | none => none
      | some d => applyPosSeq d state ps

/-- All four RGBA channels lie in the closed interval `[100, 225]`. -/
def channelsInRange (c : RGBA) : Prop :=
  (100 ≤ c.1 ∧ c.1 ≤ 225) ∧ (100 ≤ c.2.1 ∧ c.2.1 ≤ 225) ∧
    (100 ≤ c.2.2.1 ∧ c.2.2.1 ≤ 225) ∧ (100 ≤ c.2.2.2 ∧ c.2.2.2 ≤ 225)

instance : DecidablePred channelsInRange := fun c => by
  unfold channelsInRange
  infer_instance

theorem applyPosSeq_cons {dfa d : LanguageDFA} {s : ℕ} {p : Option String}
    (ps : List (Option String)) (h : add_success_state dfa s p = some d) :
    applyPosSeq dfa s (p :: ps) = applyPosSeq d s ps := by
  simp only [applyPosSeq]
  rw [h]

/-- C2 counterexample: on the sequence Noun, absent, Verb the colour update
crashes (`add_state_colour` indexes the stored Python `None`), so no stored
in-range colour results — the claim fails for sequences that mix absent parts
of speech with recognized ones. -/
theorem c2_counterexample :
    ¬ ∃ d c, applyPosSeq initLanguageDFA 0 [some "Noun", none, some "Verb"] = some d ∧
        dlookup 0 d.state_colours = some (some c) ∧ channelsInRange c := by
  have h : applyPosSeq initLanguageDFA 0 [some "Noun", none, some "Verb"] = none := by decide
  rintro ⟨d, c, hd, -, -⟩
  rw [h] at hd
  exact Option.noConfusion hd

theorem blendChannel_range (c p : ℕ) : 100 ≤ blendChannel c p ∧ blendChannel c p ≤ 225 := by
  unfold blendChannel
  constructor
  · exact le_max_left _ _
  · exact max_le (by norm_num) (min_le_right _ _)

theorem blend_range (c p : RGBA) : channelsInRange (blend c p) :=
  ⟨blendChannel_range _ _, blendChannel_range _ _, blendChannel_range _ _,
    blendChannel_range _ _⟩

/-- Like `add_success_state_of_colour`, but for a state with no stored colour:
`setdefault` supplies `(0, 0, 0, 0)`. -/
theorem add_success_state_of_fresh {dfa : LanguageDFA} {s : ℕ} {p : String}
    {pc : RGBA} (hpc : pos_rgb (some p) = some pc)
    (hc : dlookup s dfa.state_colours = none) :
    add_success_state dfa s (some p) =
      some { dfa with
        success_states :=
          dset s (insert (some p) ((dlookup s dfa.success_states).getD ∅)) dfa.success_states,
        state_colours := dset s (some (blend (0, 0, 0, 0) pc)) dfa.state_colours } := by
  unfold add_success_state add_state_colour
  simp only [hpc, hc, Option.getD_none]

theorem applyPosSeq_keeps_range (ps : List String) (dfa : LanguageDFA) (s : ℕ) (c : RGBA)
    (hc : dlookup s dfa.state_colours = some (some c)) (hr : channelsInRange c) :
    ∃ d c', applyPosSeq dfa s (ps.map some) = some d ∧
      dlookup s d.state_colours = some (some c') ∧ channelsInRange c' := by
  induction ps generalizing dfa c with
  | nil => exact ⟨dfa, c, rfl, hc, hr⟩
  | cons p ps ih =>
      obtain ⟨pc, hpc⟩ := pos_rgb_isSome p
      have hstep := add_success_state_of_colour hpc hc
      rw [List.map_cons, applyPosSeq_cons _ hstep]
      exact ih _ _ (by simp [dlookup_dset_self]) (blend_range c pc)

/-- C2 amended.  For every state and every nonempty sequence of present
(non-`None`) part-of-speech additions, the stored colour exists and each RGBA
channel lies in `[100, 225]`, every update being the clamped additive rule.
An absent part of speech instead overwrites the stored colour with the Python
`None`, and a recognized part of speech arriving after such an overwrite
raises a `TypeError` rather than producing a colour. -/
theorem c2_colour_channels_clamped :
    (∀ (s : ℕ) (p : String) (ps : List String),
      ∃ d c, applyPosSeq initLanguageDFA s ((p :: ps).map some) = some d ∧
        dlookup s d.state_colours = some (some c) ∧ channelsInRange c) ∧
    (∀ (dfa : LanguageDFA) (s : ℕ), ∃ d, add_success_state dfa s none = some d ∧
      dlookup s d.state_colours = some none) ∧
    (∀ (dfa : LanguageDFA) (s : ℕ) (p : String),
      dlookup s dfa.state_colours = some none →
      add_success_state dfa s (some p) = none) := by
  refine ⟨?_, ?_, ?_⟩
  · intro s p ps
    obtain ⟨pc, hpc⟩ := pos_rgb_isSome p
    have hfresh : dlookup s initLanguageDFA.state_colours = none := rfl
    have hstep := add_success_state_of_fresh hpc hfresh
    rw [List.map_cons, applyPosSeq_cons _ hstep]
    exact applyPosSeq_keeps_range ps _ s (blend (0, 0, 0, 0) pc)
      (by simp [dlookup_dset_self]) (blend_range _ pc)
  · intro dfa s
    exact ⟨_, add_success_state_none dfa s, by simp [dlookup_dset_self]⟩
  · intro dfa s p hc
    obtain ⟨pc, hpc⟩ := pos_rgb_isSome p
    unfold add_success_state add_state_colour
    simp only [hpc, hc, Option.getD_some]

/-- C2 witness: a stored Python `None` colour makes the next recognized
addition raise, per the amended theorem, at a concrete automaton. -/
theorem c2_witness :
    dlookup 0 (LanguageDFA.mk {0} {0} [] [(0, none)] [] 0).state_colours = some none ∧
    add_success_state (LanguageDFA.mk {0} {0} [] [(0, none)] [] 0) 0 (some "Verb") = none := by
  refine ⟨by decide, ?_⟩
  exact c2_colour_channels_clamped.2.2 _ 0 "Verb" (by decide)

/-! ### C5: `dfa.py`'s `MorphemeDFA.transition_all` versus the phrase automaton

`dfa.py` is the earlier character-automaton snapshot.  Its `transition` is the
same memoization as `language_dfas.py`'s, but its `transition_all` loop runs
`curr_state = self.transition(state, char)` — re-invoking `transition` from the
original `state` argument on every iteration instead of threading
`curr_state` forward. -/

structure MorphemeDFA where
  states : Finset ℕ
  start_states : Finset ℕ
  success_states : List (ℕ × Finset (Option String))
  success_colours : List (ℕ × RGBA)
  transitions : List ((ℕ × String) × ℕ)
  current_state : ℕ
  deriving DecidableEq

/-- `MorphemeDFA.__init__` from `dfa.py`. -/
def initMorphemeDFA : MorphemeDFA :=
  { states := {0}
    start_states := {0}
    success_states := []
    success_colours := []
    transitions := []
    current_state := 0 }

/-- `MorphemeDFA.new_state`. -/
def MorphemeDFA.new_state (dfa : MorphemeDFA) : MorphemeDFA × ℕ :=
  let state := dfa.states.card
  ({ dfa with states := insert state dfa.states }, state)

/-- `MorphemeDFA.transition`: identical memoization to the later snapshot. -/
def MorphemeDFA.transition (dfa : MorphemeDFA) (state : ℕ) (char : String) :
    MorphemeDFA × ℕ :=
  match dlookup (state, char) dfa.transitions with
  | some next => (dfa, next)
  | none =>
      let (dfa', n) := dfa.new_state
      ({ dfa' with transitions := dset (state, char) n dfa'.transitions }, n)

/-- The loop body of `dfa.py`'s `transition_all`:
`curr_state = self.transition(state, char)` — note the first argument is the
original `state`, not the running `curr_state`. -/
def MorphemeDFA.transition_all_aux (dfa : MorphemeDFA) (state curr : ℕ) :
    List String → MorphemeDFA × ℕ
  | [] => (dfa, curr)
  | c :: cs =>
      let r := dfa.transition state c
      r.1.transition_all_aux state r.2 cs

/-- `MorphemeDFA.transition_all` from `dfa.py`. -/
def MorphemeDFA.transition_all (dfa : MorphemeDFA) (state : ℕ)
    (chars : List String) : MorphemeDFA × ℕ :=
  dfa.transition_all_aux state state chars

theorem mTransition_lookup (dfa : MorphemeDFA) (s : ℕ) (c : String) :
    dlookup (s, c) (dfa.transition s c).1.transitions = some (dfa.transition s c).2 := by
  unfold MorphemeDFA.transition
  cases h : dlookup (s, c) dfa.transitions with
  | some d => simp [h]
  | none => simp [h, MorphemeDFA.new_state, dlookup_dset_self]

theorem mTransitionAll_aux_concat (dfa : MorphemeDFA) (s curr : ℕ) (cs : List String)
    (c : String) :
    dfa.transition_all_aux s curr (cs ++ [c]) =
      (dfa.transition_all_aux s curr cs).1.transition s c := by
  induction cs generalizing dfa curr with
  | nil => rfl
  | cons d ds ih =>
      show (dfa.transition s d).1.transition_all_aux s (dfa.transition s d).2 (ds ++ [c]) = _
      rw [ih]
      rfl

/-! #### The phrase automaton (`PhraseDFA` in `language_dfas.py`) -/

/-- Python string containment `needle in hay`: substring membership. -/
def strIn (needle hay : List Char) : Bool := decide (needle <:+: hay)

/-- `string.punctuation` as a character list: ASCII codes 33–47, 58–64, 91–96,
123–126, ascending — exactly Python's punctuation string. -/
def pyPunctuation : List Char :=
  ((List.range 128).filter (fun n =>
      (33 ≤ n ∧ n ≤ 47) ∨ (58 ≤ n ∧ n ≤ 64) ∨ (91 ≤ n ∧ n ≤ 96) ∨
        (123 ≤ n ∧ n ≤ 126))).map Char.ofNat

structure PhraseDFA extends LanguageDFA where
  start_labels : Finset String
  deriving DecidableEq

/-- `PhraseDFA.__init__`. -/
def initPhraseDFA : PhraseDFA :=
  { toLanguageDFA := initLanguageDFA, start_labels := ∅ }

/-- `PhraseDFA.add_start_state`. -/
def PhraseDFA.add_start_state (p : PhraseDFA) (n : ℕ) : PhraseDFA :=
  { p with start_states := insert n p.start_states }

/-- The inherited `transition`, lifted to the subclass record. -/
def PhraseDFA.transition (p : PhraseDFA) (s : ℕ) (c : String) : PhraseDFA × ℕ :=
  let r := p.toLanguageDFA.transition s c
  ({ p with toLanguageDFA := r.1 }, r.2)

/-- The inherited `add_success_state`, lifted to the subclass record. -/
def phraseAddSuccessState (p : PhraseDFA) (s : ℕ) (pos : Option String) :
    Option PhraseDFA :=
  (add_success_state p.toLanguageDFA s pos).map
    (fun d => { p with toLanguageDFA := d })

/-- The inherited `add_state_colour`, lifted to the subclass record. -/
def phraseAddStateColour (p : PhraseDFA) (s : ℕ) (pos : Option String) :
    Option PhraseDFA :=
  (add_state_colour p.toLanguageDFA s pos).map
    (fun d => { p with toLanguageDFA := d })

/-- The `for pos in poses: self.add_state_colour(curr_state, pos)` loop. -/
def phraseAddStateColours (p : PhraseDFA) (s : ℕ) : List String → Option PhraseDFA
  | [] => some p
  | pos :: rest =>
      match phraseAddStateColour p s (some pos) with
      | none => none
      | some p' => phraseAddStateColours p' s rest

/-- One pass of the `while repeat` body of `PhraseDFA.transition_all`.
`posesOf` stands in for the parser's `word_poses` lookup (the method is not
defined under `src/`; per the spec it returns the word's part-of-speech tags
and only feeds the colour updates).  The returned flag is `true` when the
source executes `continue` (retry the same word from state 0), and the `none`
result is a raised `TypeError` from `add_state_colour`. -/
def phraseAttempt (posesOf : String → List String) (p : PhraseDFA)
    (state curr : ℕ) (first : Bool) (word : String) :
    Option (PhraseDFA × ℕ × Bool) :=
  let r := p.transition curr word
  let p1 := r.1
  let c1 := r.2
  let afterColours : Option PhraseDFA :=
    if strIn word.toList pyPunctuation then phraseAddSuccessState p1 state none
    else phraseAddStateColours p1 c1 (posesOf word)
  match afterColours with
  | none => none
  | some p2 =>
      if first then some (p2.add_start_state c1, c1, false)
      else if word.toLower ∈ p2.start_labels then
        if c1 ∈ p2.start_states then some (p2, c1, false)
        else some (p2.add_start_state c1, 0, true)
      else some (p2, c1, false)

/-- The `while repeat` loop for one word.  The loop runs at most three passes
(once restarted, the memoized transition from 0 lands in a now-recorded start
state), so the fuel of 3 in `PhraseDFA.transition_all` is never exhausted. -/
def phraseWordLoop (posesOf : String → List String) (p : PhraseDFA)
    (state : ℕ) (first : Bool) (word : String) :
    ℕ → ℕ → Option (PhraseDFA × ℕ)
  | _, 0 => none
  | curr, fuel + 1 =>
      match phraseAttempt posesOf p state curr first word with
      | none => none
      | some (p', c', again) =>
          if again then phraseWordLoop posesOf p' state first word c' fuel
          else some (p', c')

/-- The `for i in range(len(phrase))` loop; `first` tracks `i == 0`. -/
def phraseGo (posesOf : String → List String) (p : PhraseDFA)
    (state curr : ℕ) (first : Bool) : List String → Option (PhraseDFA × ℕ)
  | [] => some (p, curr)
  | w :: ws =>
      match phraseWordLoop posesOf p state first w curr 3 with
      | none => none
      | some (p', c') => phraseGo posesOf p' state c' false ws

/-- `PhraseDFA.transition_all`: threads the running state forward, tags
punctuation/colours, records the first landing state as a start state, and
restarts at recognized start labels. -/
def PhraseDFA.transition_all (posesOf : String → List String) (p : PhraseDFA)
    (state : ℕ) (phrase : List String) : Option (PhraseDFA × ℕ) :=
  phraseGo posesOf p state state true phrase

/-- C5.  The base character automaton's `transition_all` re-invokes
`transition` from the original state each iteration, so for a non-empty input
its result is exactly the recorded destination of `(state, last symbol)`;
the phrase automaton's override instead threads the state forward, and the two
foldings disagree on the length-2 input `["a", "a"]` from a fresh automaton
(the base fold returns state 1, the phrase fold state 2). -/
theorem c5_base_fold_restarts_phrase_fold_threads :
    (∀ (dfa : MorphemeDFA) (s : ℕ) (cs : List String) (h : cs ≠ []),
        dlookup (s, cs.getLast h) (dfa.transition_all s cs).1.transitions
          = some (dfa.transition_all s cs).2) ∧
    ((initMorphemeDFA.transition_all 0 ["a", "a"]).2 = 1 ∧
      (PhraseDFA.transition_all (fun _ => []) initPhraseDFA 0 ["a", "a"]).map Prod.snd
        = some 2) := by
  constructor
  · intro dfa s cs h
    obtain ⟨ds, c, rfl⟩ : ∃ ds c, cs = ds ++ [c] := by
      rcases List.eq_nil_or_concat cs with hnil | ⟨ds, c, hc⟩
      · exact absurd hnil h
      · exact ⟨ds, c, by simpa [List.concat_eq_append] using hc⟩
    rw [List.getLast_append]
    unfold MorphemeDFA.transition_all
    rw [mTransitionAll_aux_concat]
    exact mTransition_lookup _ s c
  · exact ⟨by decide, by decide⟩

/-- C5 witness: the last-symbol property at a fresh automaton on `["x", "y"]`,
whose fold result is the destination recorded for `(0, "y")`. -/
theorem c5_witness :
    (["x", "y"] : List String) ≠ [] ∧
    dlookup (0, "y") (initMorphemeDFA.transition_all 0 ["x", "y"]).1.transitions
      = some (initMorphemeDFA.transition_all 0 ["x", "y"]).2 := by
  refine ⟨by decide, ?_⟩
  have h := c5_base_fold_restarts_phrase_fold_threads.1 initMorphemeDFA 0 ["x", "y"]
    (by decide)
  simpa using h

/-! ### C3: `derivative_word` (`morpheme_parser.py`) -/

/-- `d.replace("-", "")`. -/
def stripHyphens (d : String) : String :=
  String.mk (d.toList.filter (fun c => c ≠ '-'))

/-- `MorphemeParser.derivative_word`, translated clause by clause:
exact concatenation, or some piece contained in the word, the one-sided
character-set difference `set(word).difference(derivation)` smaller than 2,
and `len(word) in range(len(derivation)-1, len(derivation)+2)`. -/
def derivative_word (word : String) (derivations : List String) : Bool :=
  let derivs := derivations.map stripHyphens
  let derivation := String.join derivs
  if word = derivation then true
  else
    (derivs.any fun d => strIn d.toList word.toList) &&
    decide ((word.toList.toFinset \ derivation.toList.toFinset).card < 2) &&
    decide (derivation.length - 1 ≤ word.length ∧ word.length ≤ derivation.length + 1)

/-- The claim's reading of the near-miss test, with the *symmetric*
character-set difference between word and concatenation. -/
def derivativeSpecSymmetric (word : String) (derivations : List String) : Bool :=
  let derivs := derivations.map stripHyphens
  let derivation := String.join derivs
  if word = derivation then true
  else
    (derivs.any fun d => strIn d.toList word.toList) &&
    decide (((word.toList.toFinset \ derivation.toList.toFinset) ∪
        (derivation.toList.toFinset \ word.toList.toFinset)).card < 2) &&
    decide (derivation.length - 1 ≤ word.length ∧ word.length ≤ derivation.length + 1)

/-- The amended reading: the set of characters of the word that do not occur in
the concatenation (a one-sided difference) must have size smaller than 2. -/
def derivativeSpecAmended (word : String) (derivations : List String) : Bool :=
  let derivs := derivations.map stripHyphens
  let derivation := String.join derivs
  decide (word = derivation) ||
    ((derivs.any fun d => strIn d.toList word.toList) &&
     decide ((word.toList.toFinset \ derivation.toList.toFinset).card < 2) &&
     decide (derivation.length - 1 ≤ word.length ∧ word.length ≤ derivation.length + 1))

/-- C3 counterexample: for the word `"ab"` with derivations `["a", "cd"]` the
code accepts (the characters of `"ab"` missing from `"acd"` are just `{b}`),
but the claim's symmetric difference `{b, c, d}` has size 3, so the claim's
characterization rejects — the two disagree. -/
theorem c3_counterexample :
    derivative_word "ab" ["a", "cd"] = true ∧
      derivativeSpecSymmetric "ab" ["a", "cd"] = false := by
  constructor <;> decide

/-- C3 amended: `derivative_word` returns `True` exactly when the concatenation
of the hyphen-stripped pieces reproduces the word, or all three near-miss
conditions hold with the *one-sided* difference — the characters of the word
missing from the concatenation number fewer than 2. -/
theorem c3_derivative_word_characterization (word : String)
    (derivations : List String) :
    derivative_word word derivations = derivativeSpecAmended word derivations := by
  unfold derivative_word derivativeSpecAmended
  by_cases h : word = String.join (derivations.map stripHyphens) <;> simp [h]

/-! ### C8: `compress_etymologies` termination -/

/-- The inner `for i in range(len(morphemes))` scan: the first morpheme that is
itself a key of the etymology map and whose derivations are not all already
contained in the current list is substituted in place; `none` when the scan
completes without substituting (the `for … else` branch).  The recursion walks
the suffix starting at index `i` of `ms`. -/
def findSubstAux (etym : List (String × List String)) (ms : List String) :
    ℕ → List String → Option (List String)
  | _, [] => none
  | i, m :: rest =>
      match dlookup m etym with
      | some derivs =>
          if derivs.all (fun d => decide (d ∈ ms)) then findSubstAux etym ms (i + 1) rest
          else some (ms.take i ++ derivs ++ ms.drop (i + 1))
      | none => findSubstAux etym ms (i + 1) rest

def findSubst (etym : List (String × List String)) (ms : List String) :
    Option (List String) :=
  findSubstAux etym ms 0 ms

/-- One iteration of the `while any(m in etymologies for m in morphemes)` loop;
`none` means the loop exits with the current list (condition false, or the
inner scan found nothing to substitute). -/
def compressStep (etym : List (String × List String)) (ms : List String) :
    Option (List String) :=
  if ms.any (fun m => (dlookup m etym).isSome) then findSubst etym ms
  else none

/-- The full per-word loop, fuelled; `none` means the fuel ran out while the
source loop would still be iterating. -/
def compressLoop (etym : List (String × List String)) :
    ℕ → List String → Option (List String)
  | 0, _ => none
  | fuel + 1, ms =>
      match compressStep etym ms with
      | none => some ms
      | some ms' => compressLoop etym fuel ms'

/-- `MorphemeParser.compress_etymologies`: run the substitution loop on every
word's list; `none` when some word's loop exceeds the fuel. -/
def compress_etymologies (fuel : ℕ) (etym : List (String × List String)) :
    Option (List (String × List String)) :=
  etym.mapM (fun we => (compressLoop etym fuel we.2).map (fun ms => (we.1, ms)))

/-- The cyclic etymology map `{"a": ["b"], "b": ["a"]}`. -/
def cyclicEtym : List (String × List String) := [("a", ["b"]), ("b", ["a"])]

theorem compressLoop_cycle (fuel : ℕ) :
    compressLoop cyclicEtym fuel ["a"] = none ∧
      compressLoop cyclicEtym fuel ["b"] = none := by
  induction fuel with
  | zero => exact ⟨rfl, rfl⟩
  | succ n ih =>
      have h1 : compressStep cyclicEtym ["a"] = some ["b"] := by decide
      have h2 : compressStep cyclicEtym ["b"] = some ["a"] := by decide
      constructor
      · show (match compressStep cyclicEtym ["a"] with
          | none => some ["a"]
          | some ms' => compressLoop cyclicEtym n ms') = none
        rw [h1]
        exact ih.2
      · show (match compressStep cyclicEtym ["b"] with
          | none => some ["b"]
          | some ms' => compressLoop cyclicEtym n ms') = none
        rw [h2]
        exact ih.1

/-- C8.  On the cyclic map `{"a": ["b"], "b": ["a"]}` the substitution loop for
the word `"a"` swaps `["b"] → ["a"] → ["b"] → …` forever: the containment skip
rule never fires, no fuel suffices, and `compress_etymologies` reaches no fixed
point — the source loop does not terminate on cyclic derivations. -/
theorem c8_compress_diverges_on_cycle :
    compressStep cyclicEtym ["b"] = some ["a"] ∧
    compressStep cyclicEtym ["a"] = some ["b"] ∧
    (∀ fuel, compressLoop cyclicEtym fuel ["b"] = none) ∧
    ¬ ∃ fuel out, compress_etymologies fuel cyclicEtym = some out := by
  refine ⟨by decide, by decide, fun fuel => (compressLoop_cycle fuel).2, ?_⟩
  rintro ⟨fuel, out, hout⟩
  have h : compress_etymologies fuel cyclicEtym = none := by
    show List.mapM _ [("a", ["b"]), ("b", ["a"])] = none
    rw [List.mapM_cons]
    simp [(compressLoop_cycle fuel).2]
  rw [h] at hout
  exact Option.noConfusion hout

/-! ### C7: languages without a corpus code (`language_parser.py`,
`wiktionary_parser.py`)

File contents are passed in as `files : String → List String` (path to lines);
the `LEXICA` class-level cache is passed and returned explicitly. -/

/-- `WiktionaryParser.LANG_CODES`. -/
def LANG_CODES : List (String × String) :=
  [("Afrikaans", "af"), ("Albanian", "sq"), ("Arabic", "ar"), ("Armenian", "hy"),
   ("Basque", "eu"), ("Bengali", "bn"), ("Bosnian", "bs"), ("Breton", "br"),
   ("Bulgarian", "bg"), ("Catalan", "ca"), ("Chinese", "zh"), ("Croatian", "hr"),
   ("Danish", "da"), ("Dutch", "nl"), ("English", "en"), ("Esperanto", "eo"),
   ("Georgian", "ka"), ("German", "de"), ("Greek", "el"), ("Finnish", "fi"),
   ("French", "fr"), ("Galician", "gl"), ("Hebrew", "he"), ("Hindi", "hi"),
   ("Hungarian", "hu"), ("Icelandic", "is"), ("Indonesian", "id"), ("Italian", "it"),
   ("Japanese", "ja"), ("Kazakh", "kk"), ("Korean", "ko"), ("Latvian", "lv"),
   ("Lithuanian", "lt"), ("Macedonian", "mk"), ("Malayan", "ml"), ("Malay", "ms"),
   ("Norwegian", "no"), ("Persian", "fa"), ("Polish", "pl"), ("Portuguese", "pt"),
   ("Romanian", "ro"), ("Russian", "ru"), ("Serbian", "sr"), ("Sinhala", "si"),
   ("Slovak", "sk"), ("Slovenian", "sl"), ("Spanish", "es"), ("Swedish", "sv"),
   ("Tamil", "ta"), ("Telugu", "te"), ("Thai", "th"), ("Tagalog", "tl"),
   ("Turkish", "tr"), ("Ukrainian", "uk"), ("Vietnamese", "vi")]

/-- `WiktionaryParser.verify_language`: `None` means the parser's own language. -/
def verify_language (self_lang : String) (language : Option String) : String :=
  language.getD self_lang

/-- `WiktionaryParser.get_lang_code`. -/
def get_lang_code (self_lang : String) (language : Option String) : Option String :=
  dlookup (verify_language self_lang language) LANG_CODES

/-- `line.split(" ", 1)[0]`: the text before the first space. -/
def firstField (line : String) : String :=
  String.mk (line.toList.takeWhile (fun c => c ≠ ' '))

/-- The line loop of `init_lexicon`: every line's first field is appended, and
only then, when `lim` is truthy (not `None` and not 0), the loop breaks once
`line_no` exceeds it. -/
def initLexiconLines (lim : Option ℕ) : ℕ → List String → List String
  | _, [] => []
  | line_no, line :: rest =>
      let w := firstField line
      match lim with
      | none => w :: initLexiconLines none line_no rest
      | some l =>
          if l = 0 then w :: initLexiconLines (some 0) line_no rest
          else if line_no > l then [w]
          else w :: initLexiconLines (some l) (line_no + 1) rest

/-- `LanguageParser.init_lexicon`: `None` (absent, no exception) when the
language has no corpus code, else the frequency-list words. -/
def init_lexicon (files : String → List String) (self_lang : String)
    (language : Option String) (lim : Option ℕ) : Option (List String) :=
  match get_lang_code self_lang language with
  | none => none
  | some code =>
      let path := "resources/frequency_words/content/2016/" ++ code ++ "/" ++
        code ++ "_full.txt"
      some (initLexiconLines lim 0 (files path))

/-- The line loop of `common_words`: the break check is unconditional. -/
def commonWordsLines (lim : ℕ) : ℕ → List String → List String
  | _, [] => []
  | line_no, line :: rest =>
      let w := firstField line
      if line_no > lim then [w] else w :: commonWordsLines lim (line_no + 1) rest

/-- `LanguageParser.common_words`: `None` when the parser's language has no
corpus code, else the 50k-list words. -/
def common_words (files : String → List String) (self_lang : String) (lim : ℕ) :
    Option (List String) :=
  match get_lang_code self_lang none with
  | none => none
  | some code =>
      let path := "resources/frequency_words/content/2016/" ++ code ++ "/" ++
        code ++ "_50k.txt"
      some (commonWordsLines lim 0 (files path))

/-- `LanguageParser.fetch_lexicon`: consult the class-level `LEXICA` cache,
else initialize, record (even a `None` result is recorded) and return. -/
def fetch_lexicon (files : String → List String)
    (LEXICA : List (String × Option (List String))) (self_lang language : String)
    (lim : Option ℕ) :
    List (String × Option (List String)) × Option (List String) :=
  match dlookup language LEXICA with
  | some v => (LEXICA, v)
  | none =>
      let lexicon := init_lexicon files self_lang (some language) lim
      (dset language lexicon LEXICA, lexicon)

/-- `LanguageParser.init_alphabet` as invoked from the constructor: fetch the
lexicon capped at 1000 and union the characters of its words.  When the fetch
returns the Python `None`, the `for word in words` iteration raises
`TypeError`, modeled as the `error` result. -/
def init_alphabet (files : String → List String)
    (LEXICA : List (String × Option (List String))) (self_lang language : String) :
    Except Unit (Finset Char) :=
  match (fetch_lexicon files LEXICA self_lang language (some 1000)).2 with
  | none => Except.error ()
  | some ws => Except.ok (ws.foldl (fun a w => a ∪ w.toList.toFinset) ∅)

/-- C7 counterexample: for a language absent from the corpus-code table
("Klingon"), `init_alphabet` on the constructor path does not return an
absent/empty value — iterating the absent lexicon raises `TypeError`. -/
theorem c7_counterexample :
    get_lang_code "Klingon" (some "Klingon") = none ∧
    ¬ ∃ a, init_alphabet (fun _ => []) [] "Klingon" "Klingon" = Except.ok a := by
  refine ⟨rfl, ?_⟩
  rintro ⟨a, ha⟩
  rw [show init_alphabet (fun _ => []) [] "Klingon" "Klingon" = Except.error () from rfl]
    at ha
  exact Except.noConfusion ha

/-- C7 amended.  For a language with no corpus code, `init_lexicon` and
`common_words` return the absent value silently; but `init_alphabet` as
invoked from the constructor (class cache holding no actual lexicon for the
language) raises a `TypeError` instead of returning an absent/empty value. -/
theorem c7_no_code_lexicon_silent_alphabet_raises
    (files : String → List String) (LEXICA : List (String × Option (List String)))
    (lang : String) (lim : Option ℕ) (climit : ℕ)
    (hcode : dlookup lang LANG_CODES = none)
    (hlex : dlookup lang LEXICA = none ∨ dlookup lang LEXICA = some none) :
    init_lexicon files lang (some lang) lim = none ∧
    common_words files lang climit = none ∧
    init_alphabet files LEXICA lang lang = Except.error () := by
  have hgc : get_lang_code lang (some lang) = none := hcode
  have hgcn : get_lang_code lang none = none := hcode
  refine ⟨?_, ?_, ?_⟩
  · unfold init_lexicon
    rw [hgc]
  · unfold common_words
    rw [hgcn]
  · unfold init_alphabet fetch_lexicon
    rcases hlex with h | h
    · rw [h]
      unfold init_lexicon
      rw [hgc]
    · rw [h]

/-- C7 witness: the amended theorem at the concrete language "Klingon" with an
empty file system and an empty class cache. -/
theorem c7_witness :
    init_lexicon (fun _ => []) "Klingon" (some "Klingon") none = none ∧
    common_words (fun _ => []) "Klingon" 50000 = none ∧
    init_alphabet (fun _ => []) [] "Klingon" "Klingon" = Except.error () :=
  c7_no_code_lexicon_silent_alphabet_raises (fun _ => []) [] "Klingon" none 50000
    (by decide) (Or.inl rfl)

/-! ### C6: the five JSON-backed caches (`language_parser.py`)

`add_ipa` and `add_etymology` write `OrderedSet(values).items`; the
`ordered_set` module itself is not under `src/`, so it is modelled from the
spec.  `add_inflection` instead writes `list(set(lemmas))`, whose order is
CPython's hash-table iteration order; the CPython 2.7 (64-bit) string hash and
small-set table are embedded below to settle the order question. -/

/-- Modelled from the spec: the `OrderedSet` helper (module `ordered_set`,
missing from `src/`) deduplicates while preserving first-seen insertion order;
`OrderedSet(xs).items` is that deduplicated list.  `seen` accumulates the
elements already emitted. -/
def orderedSetAux (seen : List String) : List String → List String
  | [] => []
  | x :: xs =>
      if x ∈ seen then orderedSetAux seen xs
      else x :: orderedSetAux (x :: seen) xs

/-- Modelled from the spec: `OrderedSet(l).items`. -/
def orderedSetItems (l : List String) : List String := orderedSetAux [] l

/-- CPython 2.7's 64-bit string hash: `x = ord(s[0]) << 7`; then
`x = (1000003 * x) XOR ord(c)` over every character; then `x ^= len(s)`;
all modulo `2 ^ 64`, with the reserved value `2^64 - 1` mapped to `2^64 - 2`
(C's `-1 → -2`).  The empty string hashes to 0. -/
def pyHash (s : String) : ℕ :=
  match s.toList with
  | [] => 0
  | c :: _ =>
      let x0 := (c.toNat <<< 7) % 2 ^ 64
      let x1 := s.toList.foldl (fun a ch => ((a * 1000003) ^^^ ch.toNat) % 2 ^ 64) x0
      let x2 := x1 ^^^ s.length
      if x2 = 2 ^ 64 - 1 then 2 ^ 64 - 2 else x2

/-- CPython's open-addressing probe state after `k` steps: the unmasked index
`j` (starting from `hash mod size`) and the perturb value (starting from the
hash), stepping `j ← 5 j + perturb + 1 (mod 2^64)`, `perturb ← perturb >> 5`. -/
def probePair (n h : ℕ) : ℕ → ℕ × ℕ
  | 0 => (h % n, h)
  | k + 1 =>
      let p := probePair n h k
      ((5 * p.1 + p.2 + 1) % 2 ^ 64, p.2 >>> 5)

/-- The table slot visited at probe step `k`. -/
def pathIdx (n h k : ℕ) : ℕ := (probePair n h k).1 % n

inductive ProbeResult where
  | place (i : ℕ)
  | found (i : ℕ)
  | out
  deriving DecidableEq

/-- Walk the probe sequence from step `k`: stop at the first empty slot
(`place`) or at the key itself (`found`); `out` when the fuel is exhausted. -/
def probeLoop (t : List (Option String)) (x : String) : ℕ → ℕ → ProbeResult
  | 0, _ => .out
  | fuel + 1, k =>
      let i := pathIdx t.length (pyHash x) k
      match t.getD i none with
      | none => .place i
      | some y => if y = x then .found i else probeLoop t x fuel (k + 1)

/-- CPython's `set_add_entry`: place the key in the first empty slot along its
probe sequence unless it is found on the way.  The fuel `t.length + 14` covers
the walk in every load the resize policy allows (the perturb term dies after
thirteen shifts, after which the `5j+1` recurrence cycles through all slots);
running out of fuel is modeled as leaving the table unchanged, which never
drops an element for the loads reached here. -/
def pyInsert (t : List (Option String)) (x : String) : List (Option String) :=
  match probeLoop t x (t.length + 14) 0 with
  | .place i => t.set i (some x)
  | _ => t

/-- The number of used slots (no deletions ever happen, so `fill = used`). -/
def pyFill (t : List (Option String)) : ℕ := (t.filterMap id).length

/-- The `newsize = 8; while newsize <= minused: newsize <<= 1` loop of
`set_table_resize`. -/
def pyNewSizeAux (minused : ℕ) : ℕ → ℕ → ℕ
  | 0, n => n
  | fuel + 1, n => if n ≤ minused then pyNewSizeAux minused fuel (2 * n) else n

def pyNewSize (minused : ℕ) : ℕ := pyNewSizeAux minused (minused + 1) 8

/-- `set_table_resize`: rebuild into a fresh table of the first power of two
above `minused` (`used*4`, or `used*2` past 50000), reinserting the elements in
slot order. -/
def pyResize (t : List (Option String)) : List (Option String) :=
  let used := pyFill t
  let minused := if used > 50000 then 2 * used else 4 * used
  (t.filterMap id).foldl pyInsert (List.replicate (pyNewSize minused) none)

/-- `set.add`: insert, then resize when `fill * 3 >= size * 2`. -/
def pySetAdd (t : List (Option String)) (x : String) : List (Option String) :=
  let t' := pyInsert t x
  if 3 * pyFill t' ≥ 2 * t'.length then pyResize t' else t'

/-- Python's `list(set(l))`: build the set and read the slots in table order. -/
def pySetList (l : List String) : List String :=
  (l.foldl pySetAdd (List.replicate 8 none)).filterMap id

/-- Python's whitespace characters for `str.strip()`. -/
def pyWhitespace : List Char := [' ', '\t', '\n', '\r', Char.ofNat 11, Char.ofNat 12]

/-- Python's `s.split(sep)` for a single-character separator, on character
lists: splitting the empty string yields `[""]`, like Python. -/
def splitOnChar (sep : Char) : List Char → List (List Char)
  | [] => [[]]
  | c :: rest =>
      let r := splitOnChar sep rest
      if c = sep then [] :: r
      else
        match r with
        | [] => [[c]]
        | h :: t => (c :: h) :: t

/-- `s.strip()`. -/
def pyStrip (s : String) : String :=
  String.mk
    (((s.toList.dropWhile (· ∈ pyWhitespace)).reverse.dropWhile (· ∈ pyWhitespace)).reverse)

/-- `LanguageParser.add_ipa` for a fixed language, acting on that language's
word → IPA-list dictionary: `setdefault(word, [])`, and when the IPA is
present, append it and store `OrderedSet(ipas).items`. -/
def add_ipa (d : List (String × List String)) (word : String) (ipa : Option String) :
    List (String × List String) :=
  let ipas := (dlookup word d).getD []
  match ipa with
  | none =>
      match dlookup word d with
      | some _ => d
      | none => dset word [] d
  | some v => dset word (orderedSetItems (ipas ++ [v])) d

/-- `LanguageParser.add_etymology`: identical shape to `add_ipa` on the
etymology dictionary. -/
def add_etymology (d : List (String × List String)) (word : String)
    (etymology : Option String) : List (String × List String) :=
  let etyms := (dlookup word d).getD []
  match etymology with
  | none =>
      match dlookup word d with
      | some _ => d
      | none => dset word [] d
  | some v => dset word (orderedSetItems (etyms ++ [v])) d

/-- `LanguageParser.add_inflection`: strip both arguments, split the inflection
on `"/"`, and for each stripped subinflection append the lemma and store
`list(set(lemmas))`.  (The source's `if lemma is not None` guard is dead:
`lemma.strip()` has already run.) -/
def add_inflection (d : List (String × List String)) (inflection lem : String) :
    List (String × List String) :=
  let infl := pyStrip inflection
  let lem' := pyStrip lem
  ((splitOnChar '/' infl.toList).map String.mk).foldl
    (fun acc sub =>
      let sub' := pyStrip sub
      let lemmas := (dlookup sub' acc).getD []
      dset sub' (pySetList (lemmas ++ [lem'])) acc) d

/-! #### First-seen deduplication lemmas -/

theorem orderedSetAux_append_idem (l : List String) :
    ∀ (seen l' : List String),
      orderedSetAux seen (orderedSetAux seen l ++ l') = orderedSetAux seen (l ++ l') := by
  induction l with
  | nil => intro seen l'; rfl
  | cons x xs ih =>
      intro seen l'
      by_cases hx : x ∈ seen
      · simp only [orderedSetAux, if_pos hx, List.cons_append]
        exact ih seen l'
      · simp only [orderedSetAux, if_neg hx, List.cons_append]
        rw [ih (x :: seen) l']
        rfl

theorem orderedSetItems_append_idem (l : List String) (l' : List String) :
    orderedSetItems (orderedSetItems l ++ l') = orderedSetItems (l ++ l') :=
  orderedSetAux_append_idem l [] l'

theorem orderedSetAux_mem_notin : ∀ (l seen : List String) (y : String),
    y ∈ orderedSetAux seen l → y ∉ seen := by
  intro l
  induction l with
  | nil => intro seen y hy; simp [orderedSetAux] at hy
  | cons x xs ih =>
      intro seen y hy
      by_cases hx : x ∈ seen
      · rw [orderedSetAux, if_pos hx] at hy
        exact ih seen y hy
      · rw [orderedSetAux, if_neg hx] at hy
        rcases List.mem_cons.1 hy with rfl | hy'
        · exact hx
        · intro hs
          exact ih (x :: seen) y hy' (List.mem_cons_of_mem _ hs)

theorem orderedSetAux_nodup : ∀ (l seen : List String), (orderedSetAux seen l).Nodup := by
  intro l
  induction l with
  | nil => intro seen; exact List.nodup_nil
  | cons x xs ih =>
      intro seen
      by_cases hx : x ∈ seen
      · rw [orderedSetAux, if_pos hx]
        exact ih seen
      · rw [orderedSetAux, if_neg hx]
        refine List.nodup_cons.2 ⟨?_, ih (x :: seen)⟩
        intro hc
        exact orderedSetAux_mem_notin xs (x :: seen) x hc (List.mem_cons_self x seen)

theorem orderedSetItems_nodup (l : List String) : (orderedSetItems l).Nodup :=
  orderedSetAux_nodup l []

/-! #### The `add_ipa` / `add_etymology` fold characterization -/

theorem add_ipa_none_of_present {d : List (String × List String)} {w : String}
    {cur : List String} (hd : dlookup w d = some cur) : add_ipa d w none = d := by
  unfold add_ipa
  rw [hd]

theorem add_ipa_some_eq {d : List (String × List String)} {w : String}
    {cur : List String} (hd : dlookup w d = some cur) (v : String) :
    add_ipa d w (some v) = dset w (orderedSetItems (cur ++ [v])) d := by
  unfold add_ipa
  rw [hd]
  rfl

theorem addIpa_fold_lookup (vs : List (Option String)) :
    ∀ (d : List (String × List String)) (w : String) (cur : List String),
      dlookup w d = some (orderedSetItems cur) →
      dlookup w (vs.foldl (fun a v => add_ipa a w v) d)
        = some (orderedSetItems (cur ++ vs.filterMap id)) := by
  induction vs with
  | nil => intro d w cur hd; simpa using hd
  | cons v vs ih =>
      intro d w cur hd
      cases v with
      | none =>
          rw [List.foldl_cons, add_ipa_none_of_present hd]
          simpa using ih d w cur hd
      | some x =>
          rw [List.foldl_cons, add_ipa_some_eq hd x,
            show orderedSetItems (orderedSetItems cur ++ [x])
              = orderedSetItems (cur ++ [x]) from orderedSetItems_append_idem cur [x]]
          have := ih (dset w (orderedSetItems (cur ++ [x])) d) w (cur ++ [x])
            (dlookup_dset_self _ _ _)
          simpa [List.append_assoc] using this

theorem add_etymology_none_of_present {d : List (String × List String)} {w : String}
    {cur : List String} (hd : dlookup w d = some cur) : add_etymology d w none = d := by
  unfold add_etymology
  rw [hd]

theorem add_etymology_some_eq {d : List (String × List String)} {w : String}
    {cur : List String} (hd : dlookup w d = some cur) (v : String) :
    add_etymology d w (some v) = dset w (orderedSetItems (cur ++ [v])) d := by
  unfold add_etymology
  rw [hd]
  rfl

theorem addEtymology_fold_lookup (vs : List (Option String)) :
    ∀ (d : List (String × List String)) (w : String) (cur : List String),
      dlookup w d = some (orderedSetItems cur) →
      dlookup w (vs.foldl (fun a v => add_etymology a w v) d)
        = some (orderedSetItems (cur ++ vs.filterMap id)) := by
  induction vs with
  | nil => intro d w cur hd; simpa using hd
  | cons v vs ih =>
      intro d w cur hd
      cases v with
      | none =>
          rw [List.foldl_cons, add_etymology_none_of_present hd]
          simpa using ih d w cur hd
      | some x =>
          rw [List.foldl_cons, add_etymology_some_eq hd x,
            show orderedSetItems (orderedSetItems cur ++ [x])
              = orderedSetItems (cur ++ [x]) from orderedSetItems_append_idem cur [x]]
          have := ih (dset w (orderedSetItems (cur ++ [x])) d) w (cur ++ [x])
            (dlookup_dset_self _ _ _)
          simpa [List.append_assoc] using this

/-! #### Invariants of the CPython set table

The key facts: an element already in the table is always re-found along its
own probe path before any empty slot (so re-insertion is a no-op), and a
placement happens only in an empty slot for an element not yet present —
together these give that the slot contents are duplicate-free and contain only
inserted elements. -/

/-- The slot content seen at step `k` of `x`'s probe walk. -/
def slotAt (t : List (Option String)) (x : String) (k : ℕ) : Option String :=
  t.getD (pathIdx t.length (pyHash x) k) none

/-- `x` is found at step `k` of its own probe walk, every earlier step seeing a
different occupant. -/
def goodPath (t : List (Option String)) (x : String) (k : ℕ) : Prop :=
  (∀ m < k, ∃ y, slotAt t x m = some y ∧ y ≠ x) ∧ slotAt t x k = some x

/-- Every element of the table is findable along its own probe walk. -/
def TableInv (t : List (Option String)) : Prop :=
  ∀ x, some x ∈ t → ∃ k, goodPath t x k

def TableOK (t : List (Option String)) : Prop :=
  0 < t.length ∧ TableInv t ∧ (t.filterMap id).Nodup

theorem pathIdx_lt {n : ℕ} (hn : 0 < n) (h k : ℕ) : pathIdx n h k < n :=
  Nat.mod_lt _ hn

theorem getD_set_ne {α : Type} (t : List α) (v d : α) :
    ∀ (i j : ℕ), i ≠ j → (t.set i v).getD j d = t.getD j d := by
  induction t with
  | nil => intro i j _; rfl
  | cons a l ih =>
      intro i j hij
      cases i with
      | zero =>
          cases j with
          | zero => exact absurd rfl hij
          | succ j => rfl
      | succ i =>
          cases j with
          | zero => rfl
          | succ j => exact ih i j (fun he => hij (by rw [he]))

theorem getD_set_self {α : Type} (t : List α) (v d : α) :
    ∀ (i : ℕ), i < t.length → (t.set i v).getD i d = v := by
  induction t with
  | nil => intro i h; simp at h
  | cons a l ih =>
      intro i h
      cases i with
      | zero => rfl
      | succ i => exact ih i (by simpa using h)

theorem mem_filterMap_id {y : String} {t : List (Option String)} :
    y ∈ t.filterMap id ↔ some y ∈ t := by
  simp

theorem set_filterMap_perm (t : List (Option String)) (x : String) :
    ∀ (i : ℕ), i < t.length → t.getD i none = none →
      ((t.set i (some x)).filterMap id).Perm (x :: t.filterMap id) := by
  induction t with
  | nil => intro i h; simp at h
  | cons a l ih =>
      intro i hlen hnone
      cases i with
      | zero =>
          have ha : a = none := hnone
          subst ha
          simp
      | succ i =>
          have hlen' : i < l.length := by simpa using hlen
          have hnone' : l.getD i none = none := hnone
          cases a with
          | none => simpa using ih i hlen' hnone'
          | some b =>
              have h1 : ((l.set i (some x)).filterMap id).Perm (x :: l.filterMap id) :=
                ih i hlen' hnone'
              have h2 : (b :: (l.set i (some x)).filterMap id).Perm
                  (b :: x :: l.filterMap id) := h1.cons b
              have h3 : (b :: x :: l.filterMap id).Perm (x :: b :: l.filterMap id) :=
                List.Perm.swap x b _
              simpa using h2.trans h3

theorem probeLoop_place_spec {t : List (Option String)} {x : String} {i : ℕ} :
    ∀ {fuel k₀ : ℕ}, probeLoop t x fuel k₀ = .place i →
      ∃ m, k₀ ≤ m ∧ i = pathIdx t.length (pyHash x) m ∧ slotAt t x m = none ∧
        ∀ j, k₀ ≤ j → j < m → ∃ y, slotAt t x j = some y ∧ y ≠ x := by
  intro fuel
  induction fuel with
  | zero =>
      intro k₀ h
      exact absurd h (by simp [probeLoop])
  | succ n ih =>
      intro k₀ h
      rw [probeLoop] at h
      cases hs : t.getD (pathIdx t.length (pyHash x) k₀) none with
      | none =>
          simp only [hs] at h
          cases h
          exact ⟨k₀, le_refl _, rfl, hs,
            fun j hj1 hj2 => absurd (lt_of_le_of_lt hj1 hj2) (lt_irrefl _)⟩
      | some y =>
          simp only [hs] at h
          by_cases hy : y = x
          · rw [if_pos hy] at h
            exact absurd h (by simp)
          · rw [if_neg hy] at h
            obtain ⟨m, hm1, hm2, hm3, hm4⟩ := ih h
            refine ⟨m, le_trans (Nat.le_succ k₀) hm1, hm2, hm3, ?_⟩
            intro j hj1 hj2
            rcases Nat.eq_or_lt_of_le hj1 with rfl | hlt
            · exact ⟨y, hs, hy⟩
            · exact hm4 j hlt hj2

theorem probeLoop_ne_place_of_goodPath {t : List (Option String)} {x : String}
    {k : ℕ} (hg : goodPath t x k) :
    ∀ (fuel k₀ : ℕ), k₀ ≤ k → ∀ i, probeLoop t x fuel k₀ ≠ .place i := by
  intro fuel
  induction fuel with
  | zero => intro k₀ _ i h; simp [probeLoop] at h
  | succ n ih =>
      intro k₀ hk i h
      rw [probeLoop] at h
      rcases Nat.lt_or_ge k₀ k with hlt | hge
      · obtain ⟨y, hy, hyx⟩ := hg.1 k₀ hlt
        simp only [show t.getD (pathIdx t.length (pyHash x) k₀) none = some y from hy] at h
        rw [if_neg hyx] at h
        exact ih (k₀ + 1) hlt i h
      · have hke : k₀ = k := le_antisymm hk hge
        subst hke
        simp only [show t.getD (pathIdx t.length (pyHash x) k₀) none = some x from hg.2,
          if_true] at h
        exact absurd h (by simp)

theorem pyInsert_ok {t : List (Option String)} (x : String) (h : TableOK t) :
    TableOK (pyInsert t x) ∧ (∀ y, some y ∈ pyInsert t x → y = x ∨ some y ∈ t) ∧
      (pyInsert t x).length = t.length := by
  obtain ⟨hlen, hinv, hnd⟩ := h
  unfold pyInsert
  cases hp : probeLoop t x (t.length + 14) 0 with
  | found i => exact ⟨⟨hlen, hinv, hnd⟩, fun y hy => Or.inr hy, rfl⟩
  | out => exact ⟨⟨hlen, hinv, hnd⟩, fun y hy => Or.inr hy, rfl⟩
  | place i =>
      obtain ⟨m, -, him, hmnone, hprior⟩ := probeLoop_place_spec hp
      have hilen : i < t.length := him ▸ pathIdx_lt hlen _ _
      have hinone : t.getD i none = none := by
        rw [him]
        exact hmnone
      have hx : some x ∉ t := by
        intro hmem
        obtain ⟨k, hk⟩ := hinv x hmem
        exact probeLoop_ne_place_of_goodPath hk _ 0 (Nat.zero_le k) i hp
      have hperm := set_filterMap_perm t x i hilen hinone
      have hlset : (t.set i (some x)).length = t.length := List.length_set t i (some x)
      -- the probe geometry is unchanged: lengths agree
      have hslot : ∀ (z : String) (j : ℕ),
          pathIdx (t.set i (some x)).length (pyHash z) j
            = pathIdx t.length (pyHash z) j := by
        intro z j
        rw [hlset]
      have hmem' : ∀ y, some y ∈ t.set i (some x) → y = x ∨ some y ∈ t := by
        intro y hy
        have hy2 : y ∈ x :: t.filterMap id := hperm.mem_iff.1 (mem_filterMap_id.2 hy)
        rcases List.mem_cons.1 hy2 with rfl | hy3
        · exact Or.inl rfl
        · exact Or.inr (mem_filterMap_id.1 hy3)
      refine ⟨⟨by rw [hlset]; exact hlen, ?_, ?_⟩, hmem', hlset⟩
      · -- the findability invariant
        intro y hy
        rcases hmem' y hy with rfl | hyt
        · -- the newly placed element is found at its placement step
          refine ⟨m, fun j hj => ?_, ?_⟩
          · obtain ⟨z, hz, hzx⟩ := hprior j (Nat.zero_le j) hj
            refine ⟨z, ?_, hzx⟩
            unfold slotAt at hz ⊢
            rw [hslot]
            have hne : pathIdx t.length (pyHash y) j ≠ i := by
              intro he
              rw [he, hinone] at hz
              exact Option.noConfusion hz
            rw [getD_set_ne t (some y) none _ _ (fun he => hne he.symm)]
            exact hz
          · unfold slotAt
            rw [hslot, ← him]
            exact getD_set_self t (some y) none i hilen
        · -- old elements keep their paths: no slot on them changed
          obtain ⟨k, hk1, hk2⟩ := hinv y hyt
          refine ⟨k, fun j hj => ?_, ?_⟩
          · obtain ⟨z, hz, hzx⟩ := hk1 j hj
            refine ⟨z, ?_, hzx⟩
            unfold slotAt at hz ⊢
            rw [hslot]
            have hne : pathIdx t.length (pyHash y) j ≠ i := by
              intro he
              rw [he, hinone] at hz
              exact Option.noConfusion hz
            rw [getD_set_ne t (some x) none _ _ (fun he => hne he.symm)]
            exact hz
          · unfold slotAt at hk2 ⊢
            rw [hslot]
            have hne : pathIdx t.length (pyHash y) k ≠ i := by
              intro he
              rw [he, hinone] at hk2
              exact Option.noConfusion hk2
            rw [getD_set_ne t (some x) none _ _ (fun he => hne he.symm)]
            exact hk2
      · -- no duplicates
        refine hperm.nodup_iff.2 (List.nodup_cons.2 ⟨?_, hnd⟩)
        intro hc
        exact hx (mem_filterMap_id.1 hc)

theorem foldl_pyInsert_ok : ∀ (l : List String) (t : List (Option String)),
    TableOK t → TableOK (l.foldl pyInsert t) ∧
      ∀ y, some y ∈ l.foldl pyInsert t → y ∈ l ∨ some y ∈ t := by
  intro l
  induction l with
  | nil => intro t ht; exact ⟨ht, fun y hy => Or.inr hy⟩
  | cons a l ih =>
      intro t ht
      obtain ⟨ht', hmem', -⟩ := pyInsert_ok a ht
      obtain ⟨hok, hsub⟩ := ih (pyInsert t a) ht'
      refine ⟨hok, fun y hy => ?_⟩
      rcases hsub y hy with hy1 | hy1
      · exact Or.inl (List.mem_cons_of_mem _ hy1)
      · rcases hmem' y hy1 with rfl | hy2
        · exact Or.inl (List.mem_cons_self _ _)
        · exact Or.inr hy2

theorem filterMap_id_replicate_none (n : ℕ) :
    (List.replicate n (none : Option String)).filterMap id = [] := by
  induction n with
  | zero => rfl
  | succ k ih => simp [List.replicate_succ, ih]

theorem replicate_TableOK {n : ℕ} (hn : 0 < n) :
    TableOK (List.replicate n (none : Option String)) := by
  refine ⟨by simpa using hn, ?_, ?_⟩
  · intro x hx
    exact absurd (List.eq_of_mem_replicate hx) (by simp)
  · rw [filterMap_id_replicate_none]
    exact List.nodup_nil

theorem pyNewSizeAux_ge (m : ℕ) : ∀ (fuel n : ℕ), n ≤ pyNewSizeAux m fuel n := by
  intro fuel
  induction fuel with
  | zero => intro n; exact le_refl n
  | succ k ih =>
      intro n
      rw [pyNewSizeAux]
      split_ifs with h
      · exact le_trans (by omega) (ih (2 * n))
      · exact le_refl n

theorem pyNewSize_pos (m : ℕ) : 0 < pyNewSize m :=
  lt_of_lt_of_le (by norm_num) (pyNewSizeAux_ge m (m + 1) 8)

theorem pyResize_ok {t : List (Option String)} (_h : TableOK t) :
    TableOK (pyResize t) ∧ ∀ y, some y ∈ pyResize t → some y ∈ t := by
  unfold pyResize
  obtain ⟨hok, hsub⟩ := foldl_pyInsert_ok (t.filterMap id) _
    (replicate_TableOK (pyNewSize_pos _))
  refine ⟨hok, fun y hy => ?_⟩
  rcases hsub y hy with hin | hin
  · exact mem_filterMap_id.1 hin
  · exact absurd (List.eq_of_mem_replicate hin) (by simp)

theorem pySetAdd_ok {t : List (Option String)} (x : String) (h : TableOK t) :
    TableOK (pySetAdd t x) ∧ ∀ y, some y ∈ pySetAdd t x → y = x ∨ some y ∈ t := by
  obtain ⟨hok, hsub, -⟩ := pyInsert_ok x h
  simp only [pySetAdd]
  split_ifs with hcond
  · obtain ⟨hok2, hsub2⟩ := pyResize_ok hok
    exact ⟨hok2, fun y hy => hsub y (hsub2 y hy)⟩
  · exact ⟨hok, hsub⟩

theorem foldl_pySetAdd_ok : ∀ (l : List String) (t : List (Option String)),
    TableOK t → TableOK (l.foldl pySetAdd t) ∧
      ∀ y, some y ∈ l.foldl pySetAdd t → y ∈ l ∨ some y ∈ t := by
  intro l
  induction l with
  | nil => intro t ht; exact ⟨ht, fun y hy => Or.inr hy⟩
  | cons a l ih =>
      intro t ht
      obtain ⟨ht', hmem'⟩ := pySetAdd_ok a ht
      obtain ⟨hok, hsub⟩ := ih (pySetAdd t a) ht'
      refine ⟨hok, fun y hy => ?_⟩
      rcases hsub y hy with hy1 | hy1
      · exact Or.inl (List.mem_cons_of_mem _ hy1)
      · rcases hmem' y hy1 with rfl | hy2
        · exact Or.inl (List.mem_cons_self _ _)
        · exact Or.inr hy2

/-- `list(set(l))` has no duplicates and contains only elements of `l`. -/
theorem pySetList_ok (l : List String) :
    (pySetList l).Nodup ∧ ∀ y ∈ pySetList l, y ∈ l := by
  unfold pySetList
  obtain ⟨⟨-, -, hnd⟩, hsub⟩ := foldl_pySetAdd_ok l (List.replicate 8 none)
    (replicate_TableOK (by norm_num))
  refine ⟨hnd, fun y hy => ?_⟩
  rcases hsub y (mem_filterMap_id.1 hy) with hin | hin
  · exact hin
  · exact absurd (List.eq_of_mem_replicate hin) (by simp)

/-! #### The inflection cache invariant -/

/-- Every stored lemma list is duplicate-free with elements drawn from `T`. -/
def InflOK (d : List (String × List String)) (T : List String) : Prop :=
  ∀ k l, dlookup k d = some l → l.Nodup ∧ ∀ y ∈ l, y ∈ T

theorem inflOK_step {d : List (String × List String)} {T : List String}
    {sub lem' : String} (hT : lem' ∈ T) (h : InflOK d T) :
    InflOK (dset sub (pySetList ((dlookup sub d).getD [] ++ [lem'])) d) T := by
  intro k l hl
  by_cases hk : k = sub
  · subst hk
    rw [dlookup_dset_self] at hl
    cases hl
    obtain ⟨hnd, hsub⟩ := pySetList_ok ((dlookup k d).getD [] ++ [lem'])
    refine ⟨hnd, fun y hy => ?_⟩
    rcases List.mem_append.1 (hsub y hy) with h1 | h1
    · cases hd : dlookup k d with
      | none => rw [hd] at h1; simp at h1
      | some l₀ =>
          rw [hd] at h1
          exact (h k l₀ hd).2 y h1
    · rw [List.mem_singleton.1 h1]
      exact hT
  · rw [dlookup_dset_ne _ _ hk] at hl
    exact h k l hl

theorem inflInnerFold_ok {T : List String} (lem' : String) (hT : lem' ∈ T) :
    ∀ (subs : List String) (d : List (String × List String)), InflOK d T →
      InflOK (subs.foldl (fun acc sub =>
        dset (pyStrip sub) (pySetList ((dlookup (pyStrip sub) acc).getD [] ++ [lem'])) acc)
        d) T := by
  intro subs
  induction subs with
  | nil => intro d h; exact h
  | cons s ss ih => intro d h; exact ih _ (inflOK_step hT h)

theorem add_inflection_preserves {T : List String} (infl lem : String)
    (hT : pyStrip lem ∈ T) {d : List (String × List String)} (h : InflOK d T) :
    InflOK (add_inflection d infl lem) T := by
  unfold add_inflection
  exact inflInnerFold_ok (pyStrip lem) hT _ d h

theorem inflFold_ok (pairs : List (String × String)) :
    ∀ (d : List (String × List String)) (T : List String), InflOK d T →
      (∀ pr ∈ pairs, pyStrip pr.2 ∈ T) →
      InflOK (pairs.foldl (fun a pr => add_inflection a pr.1 pr.2) d) T := by
  induction pairs with
  | nil => intro d T h _; exact h
  | cons pr prs ih =>
      intro d T h hmem
      exact ih _ _ (add_inflection_preserves pr.1 pr.2 (hmem pr (List.mem_cons_self _ _)) h)
        (fun q hq => hmem q (List.mem_cons_of_mem _ hq))

/-- C6 counterexample: adding lemma "b" then lemma "a" for the same inflection
key stores `["a", "b"]` — `list(set(lemmas))` iterates CPython's hash table
(hash("a") mod 8 = 0, hash("b") mod 8 = 3), not first-seen insertion order,
which would be `["b", "a"]` as `OrderedSet` computes it. -/
theorem c6_counterexample :
    dlookup "w" (List.foldl (fun a pr => add_inflection a pr.1 pr.2) []
        [("w", "b"), ("w", "a")]) = some ["a", "b"] ∧
    orderedSetItems ["b", "a"] = ["b", "a"] ∧
    (["a", "b"] : List String) ≠ ["b", "a"] :=
  ⟨by decide, by decide, by decide⟩

/-- C6 amended.  `add_ipa` and `add_etymology` store, for each key, exactly the
first-seen-order deduplication (`OrderedSet`) of the non-`None` values added,
so those lists are duplicate-free and preserve insertion order; `add_inflection`
stores a duplicate-free list whose elements are among the (stripped) lemmas
added, but in CPython set-table iteration order rather than first-seen
insertion order (adding "b" then "a" stores `["a", "b"]`). -/
theorem c6_cache_value_lists :
    (∀ (w : String) (vs : List (Option String)), vs ≠ [] →
      dlookup w (vs.foldl (fun a v => add_ipa a w v) [])
        = some (orderedSetItems (vs.filterMap id)) ∧
      (orderedSetItems (vs.filterMap id)).Nodup) ∧
    (∀ (w : String) (vs : List (Option String)), vs ≠ [] →
      dlookup w (vs.foldl (fun a v => add_etymology a w v) [])
        = some (orderedSetItems (vs.filterMap id))) ∧
    (∀ (pairs : List (String × String)) (k : String) (l : List String),
      dlookup k (pairs.foldl (fun a pr => add_inflection a pr.1 pr.2) []) = some l →
      l.Nodup ∧ ∀ y ∈ l, y ∈ pairs.map (fun pr => pyStrip pr.2)) ∧
    dlookup "w" (List.foldl (fun a pr => add_inflection a pr.1 pr.2) []
        [("w", "b"), ("w", "a")]) = some ["a", "b"] := by
  refine ⟨?_, ?_, ?_, by decide⟩
  · intro w vs hvs
    refine ⟨?_, orderedSetItems_nodup _⟩
    cases vs with
    | nil => exact absurd rfl hvs
    | cons v vs' =>
        cases v with
        | none =>
            have h1 : add_ipa [] w none = dset w [] [] := rfl
            have h2 : dlookup w (dset w ([] : List String) []) = some (orderedSetItems []) :=
              dlookup_dset_self _ _ _
            rw [List.foldl_cons, h1]
            simpa using addIpa_fold_lookup vs' _ w [] h2
        | some x =>
            have h1 : add_ipa [] w (some x) = dset w (orderedSetItems ([] ++ [x])) [] := rfl
            have h2 : dlookup w (dset w (orderedSetItems ([] ++ [x])) [])
                = some (orderedSetItems ([] ++ [x])) := dlookup_dset_self _ _ _
            rw [List.foldl_cons, h1]
            simpa using addIpa_fold_lookup vs' _ w ([] ++ [x]) h2
  · intro w vs hvs
    cases vs with
    | nil => exact absurd rfl hvs
    | cons v vs' =>
        cases v with
        | none =>
            have h1 : add_etymology [] w none = dset w [] [] := rfl
            have h2 : dlookup w (dset w ([] : List String) []) = some (orderedSetItems []) :=
              dlookup_dset_self _ _ _
            rw [List.foldl_cons, h1]
            simpa using addEtymology_fold_lookup vs' _ w [] h2
        | some x =>
            have h1 : add_etymology [] w (some x)
                = dset w (orderedSetItems ([] ++ [x])) [] := rfl
            have h2 : dlookup w (dset w (orderedSetItems ([] ++ [x])) [])
                = some (orderedSetItems ([] ++ [x])) := dlookup_dset_self _ _ _
            rw [List.foldl_cons, h1]
            simpa using addEtymology_fold_lookup vs' _ w ([] ++ [x]) h2
  · intro pairs k l hl
    have h0 : InflOK [] (pairs.map (fun pr => pyStrip pr.2)) := by
      intro k' l' hl'
      simp [dlookup] at hl'
    exact inflFold_ok pairs [] _ h0
      (fun pr hpr => List.mem_map_of_mem _ hpr) k l hl

/-- C6 witness: the amended theorem at a concrete IPA sequence (duplicate and
absent values included) and at the concrete inflection fold. -/
theorem c6_witness :
    ([some "k", none, some "k"] : List (Option String)) ≠ [] ∧
    dlookup "cat" (([some "k", none, some "k"] : List (Option String)).foldl
        (fun a v => add_ipa a "cat" v) [])
      = some (orderedSetItems (([some "k", none, some "k"] :
          List (Option String)).filterMap id)) ∧
    (["a", "b"] : List String).Nodup ∧
    ∀ y ∈ (["a", "b"] : List String),
      y ∈ ([("w", "b"), ("w", "a")] : List (String × String)).map
        (fun pr => pyStrip pr.2) := by
  refine ⟨by decide, (c6_cache_value_lists.1 "cat" _ (by decide)).1, ?_, ?_⟩
  · exact (c6_cache_value_lists.2.2.1 [("w", "b"), ("w", "a")] "w" ["a", "b"]
      (by decide)).1
  · exact (c6_cache_value_lists.2.2.1 [("w", "b"), ("w", "a")] "w" ["a", "b"]
      (by decide)).2

/-! ### C9: the syllable-segmentation pipeline (`ipa_parser.py`, `ipa_word.py`)

The parser state these functions consult is its `phoneme_dict`: `is_ipa_vowel`
reads its keys, `is_ipa_phoneme` its values.  Both are carried in a
`PhonemeState` record, since the test fixture's dictionary comes from cached
JSON resources that are not part of the repository snapshot.  IPA strings are
`List Char` (Python unicode, one code point per element). -/

/-- The symbols of the `IPAVOWELS` table in `ipa_symbols.py`. -/
def IPAVOWELS : List Char :=
  ['i', 'y', 'ɪ', 'ʏ', 'e', 'ø', 'ɛ', 'œ', 'æ', 'a', 'ɶ', 'ɨ', 'ʉ', 'ɘ', 'ɵ',
   'ə', 'ɚ', 'ɜ', 'ɝ', 'ɞ', 'ɐ', 'ɯ', 'u', 'ʊ', 'ɤ', 'o', 'ʌ', 'ɔ', 'ɑ', 'ɒ']

/-- The symbols of the `IPACONSONANTS` table in `ipa_symbols.py`. -/
def IPACONSONANTS : List Char :=
  ['p', 'b', 't', 'd', 'ʈ', 'ɖ', 'c', 'ɟ', 'k', 'ɡ', 'q', 'ɢ', 'ʔ', 'm', 'ɱ',
   'n', 'ɳ', 'ɲ', 'ŋ', 'ɴ', 'ʙ', 'r', 'ʀ', 'ⱱ', 'ɾ', 'ɽ', 'ɸ', 'β', 'f', 'v',
   'θ', 'ð', 's', 'z', 'ʃ', 'ʒ', 'ʂ', 'ʐ', 'ç', 'ʝ', 'x', 'ɣ', 'χ', 'ʁ', 'ħ',
   'ʕ', 'h', 'ɦ', 'w', 'ʋ', 'ɹ', 'ɻ', 'j', 'ɰ', 'ɬ', 'ɮ', 'ɫ', 'l', 'ɭ', 'ʟ',
   'ɺ', 'ɕ', 'ʑ', 'ɓ', 'ɗ', 'ʜ', 'ʤ', 'ʄ', 'ɠ', 'ʛ', 'ɥ', 'ʘ', 'ʧ', 'ʍ',
   'ʎ', 'ʡ', 'ʢ']

/-- Modelled from the spec: `SEMIVOWELS` (defined in the `ipa_unicode` module,
which is not under `src/`) is "the fixed small set of the labio-velar and
palatal approximant glides": `w` and `j`. -/
def SEMIVOWELS : List Char := ['w', 'j']

/-- The parser state consulted by the segmentation functions: the keys and the
flattened values of its `phoneme_dict`. -/
structure PhonemeState where
  keys : List (List Char)
  vals : List (List Char)
  deriving DecidableEq

/-- The lookup `IPALETTERS[ipa].get_is_vowel()`: defined only for a single
catalogued letter symbol. -/
def ipaLetterVowel : List Char → Option Bool
  | [c] =>
      if c ∈ IPAVOWELS then some true
      else if c ∈ IPACONSONANTS then some false
      else none
  | _ => none

/-- `IPAParser.is_ipa_vowel`: single letters answer from the catalog; a
multi-character string answers only when the phoneme dictionary is nonempty
and contains it as a key, in which case it is a vowel when any of its
catalogued letters is (`any(self.is_ipa_vowel(sym) for sym in ipa if sym in
IPALETTERS)` reduces to: some character is a catalogued vowel); everything
else is `None`. -/
def is_ipa_vowel (st : PhonemeState) (ipa : List Char) : Option Bool :=
  match ipaLetterVowel ipa with
  | some b => some b
  | none =>
      if 1 < ipa.length then
        if st.keys = [] then none
        else if ipa ∈ st.keys then some (ipa.any (fun c => decide (c ∈ IPAVOWELS)))
        else none
      else none

/-- `IPAParser.is_ipa_semivowel`: `None` unless the symbol is a catalogued
letter, else membership in `SEMIVOWELS` (a catalogued letter is one character,
so string membership is character membership). -/
def is_ipa_semivowel (ipa : List Char) : Option Bool :=
  match ipaLetterVowel ipa with
  | some _ => some (ipa.any (fun c => decide (c ∈ SEMIVOWELS)))
  | none => none

/-- `IPAParser.is_ipa_phoneme`: an exact match among the phoneme dictionary's
values, else `is_ipa_vowel(ipa) is not None`. -/
def is_ipa_phoneme (st : PhonemeState) (ipa : List Char) : Bool :=
  if ipa ∈ st.vals then true
  else (is_ipa_vowel st ipa).isSome

/-- `IPAParser.remove_parens`: `word.split("(", 1)[0]`. -/
def remove_parens (w : List Char) : List Char :=
  w.takeWhile (fun c => c ≠ '(')

/-- `IPAParser.clean_ipa`: strip stress and syllable marks after truncating at
a parenthesis. -/
def clean_ipa (w : List Char) : List Char :=
  (remove_parens w).filter (fun c => c ≠ 'ˈ' ∧ c ≠ 'ˌ' ∧ c ≠ '.')

/-- `IPAParser.restress`: stress marks become periods, then leading/trailing
periods are stripped. -/
def restress (w : List Char) : List Char :=
  let subbed := w.map (fun c => if c = 'ˈ' ∨ c = 'ˌ' then '.' else c)
  ((subbed.dropWhile (fun c => c = '.')).reverse.dropWhile (fun c => c = '.')).reverse

/-- The `while end <= 3` polyphoneme search of `next_phoneme`: returns the
accumulated phoneme and the `end` cursor at loop exit (after the `end -= 1` of
a break, or 4 on natural exit). -/
def phonemeScan (st : PhonemeState) (new_ipa : List Char) :
    ℕ → ℕ → List Char → List Char × ℕ
  | 0, e, ph => (ph, e)
  | fuel + 1, e, ph =>
      if e ≤ 3 then
        let new_sym := new_ipa.take e
        let filtered := new_sym.filter (fun c => decide (c ∉ SEMIVOWELS))
        match is_ipa_vowel st filtered with
        | none => (ph, e - 1)
        | some _ =>
            let ph' := if is_ipa_phoneme st new_sym then new_sym else ph
            phonemeScan st new_ipa fuel (e + 1) ph'
      else (ph, e)

/-- `IPAParser.next_phoneme` with `remove=True`: the scanned prefix comes from
the restressed-and-truncated (or cleaned) string, but the removal slices the
*original* string at the `end` cursor.  The `none` result is the `IndexError`
of `new_ipa[0]` when the fallback fires on an empty working string. -/
def next_phoneme (st : PhonemeState) (use_syllables : Bool) (ipa : List Char) :
    Option (List Char × List Char) :=
  if ipa = [] then some ([], ipa)
  else
    let new_ipa :=
      if use_syllables then (restress ipa).takeWhile (fun c => c ≠ '.')
      else clean_ipa ipa
    let pr := phonemeScan st new_ipa 4 1 []
    if pr.1 = [] then
      match new_ipa with
      | [] => none
      | c :: _ => some ([c], ipa.drop 1)
    else some (pr.1, ipa.drop pr.2)

/-- The accumulation loop of `IPAParser.break_syllable`: onset before the first
vowel phoneme, rhyme through vowels and semivowels, and the first
non-vowel/non-semivowel after the nucleus closes the syllable as
`coda = phoneme + remaining`. -/
def breakSyllableGo (st : PhonemeState) :
    ℕ → List Char → List Char → List Char → Bool → List Char →
      Option (List Char × List Char × List Char)
  | 0, _, _, _, _, _ => none
  | fuel + 1, onset, rhyme, coda, pre_rhyme, next_syl =>
      if next_syl = [] then some (onset, rhyme, coda)
      else
        match next_phoneme st true next_syl with
        | none => none
        | some (ph, rest) =>
            let isv := is_ipa_vowel st ph
            if pre_rhyme then
              if isv = some true then
                breakSyllableGo st fuel onset (rhyme ++ ph) coda false rest
              else breakSyllableGo st fuel (onset ++ ph) rhyme coda true rest
            else
              if isv = some true ∨ is_ipa_semivowel ph = some true then
                breakSyllableGo st fuel onset (rhyme ++ ph) coda false rest
              else some (onset, rhyme, coda ++ ph ++ rest)

/-- `IPAParser.break_syllable`. -/
def break_syllable (st : PhonemeState) (syllable : List Char) :
    Option (List Char × List Char × List Char) :=
  breakSyllableGo st (syllable.length + 1) [] [] [] true syllable

/-- The accumulation loop of `IPAParser.next_syllable`: consonants before the
first vowel and the vowel run are kept; a consonant after the nucleus is kept
only when the following phoneme is not a vowel (`is False`), else it is pushed
back as the start of the next syllable. -/
def nextSyllableGo (st : PhonemeState) :
    ℕ → List Char → Bool → List Char → Option (List Char × List Char)
  | 0, _, _, _ => none
  | fuel + 1, syllable, pre_vowel, ipa =>
      if ipa = [] then some (syllable, ipa)
      else
        match next_phoneme st false ipa with
        | none => none
        | some (ph, rest) =>
            let isv := is_ipa_vowel st ph
            if pre_vowel then
              nextSyllableGo st fuel (syllable ++ ph)
                (if isv = some true then false else true) rest
            else
              if isv = some true then nextSyllableGo st fuel (syllable ++ ph) false rest
              else if rest = [] then nextSyllableGo st fuel (syllable ++ ph) false rest
              else
                match next_phoneme st false rest with
                | none => none
                | some (ph2, _) =>
                    if is_ipa_vowel st ph2 = some false then some (syllable ++ ph, rest)
                    else some (syllable, ph ++ rest)

/-- `IPAParser.next_syllable` (with `remove=True`): cleans its input first. -/
def next_syllable (st : PhonemeState) (ipa : List Char) :
    Option (List Char × List Char) :=
  let ipa' := clean_ipa ipa
  nextSyllableGo st (ipa'.length + 1) [] true ipa'

/-- The `while len(ipa) != 0` syllable-collection loop shared by the
marker-free `split_syllables` and by `IPAWord.add_syllables`. -/
def collectSyllables (st : PhonemeState) : ℕ → List Char → Option (List (List Char))
  | 0, _ => none
  | fuel + 1, ipa =>
      if ipa = [] then some []
      else
        match next_syllable st ipa with
        | none => none
        | some (syl, rest) => (collectSyllables st fuel rest).map (fun l => syl :: l)

/-- `IPAParser.split_syllables` with `use_syllables=False`: empty input yields
the Python `None` (folded into the `none` result); otherwise clean the string
and collect syllables. -/
def split_syllables_marker_free (st : PhonemeState) (ipa : List Char) :
    Option (List (List Char)) :=
  if ipa = [] then none
  else collectSyllables st (ipa.length + 1) (clean_ipa ipa)

/-- `IPAParser.break_syllables` with `use_syllables=False`. -/
def break_syllables_marker_free (st : PhonemeState) (ipa : List Char) :
    Option (List (List Char × List Char × List Char)) :=
  match split_syllables_marker_free st ipa with
  | none => none
  | some syls => syls.mapM (break_syllable st)

/-- `IPAParser.extract_syllable` with `use_syllables=False`: an out-of-range
index yields the all-empty triple. -/
def extract_syllable_marker_free (st : PhonemeState) (ipa : List Char) (idx : ℕ) :
    Option (List Char × List Char × List Char) :=
  match split_syllables_marker_free st ipa with
  | none => none
  | some syls =>
      match syls.get? idx with
      | none => some ([], [], [])
      | some s => break_syllable st s

/-- `IPAWord.add_syllables`: collect the marker-free syllables of the raw IPA
and join them with periods. -/
def add_syllables (st : PhonemeState) (ipa : List Char) : Option (List Char) :=
  (collectSyllables st (ipa.length + 1) ipa).map (fun syls => List.intercalate ['.'] syls)

/-- **C9.** The claim asserts that marker-free `break_syllables` on the Dutch
fixture "klɛi̯ntjə" returns `[("kl", "ɛi", "̯n"), ("t", "jə", "")]` and that
`add_syllables` returns "klɛi̯n.tjə".  Neither holds.  With no cached phoneme
dictionary (the state carrying empty key and value lists) the pipeline
returns `[("kl", "ɛi", "̯"), ("nt", "ə", "")]` and "klɛi̯.ntə": the inversion
diacritic alone closes the first syllable, and the polyphoneme scan of
`next_phoneme` silently drops the `j` of "tjə" (at width two it filters the
semivowel out of "tj", sees the letter "t", and keeps scanning; at width
three it breaks with the cursor at two, so the slice removes "tj" while the
phoneme is only "t").  Moreover, for every parser state, the head of
`break_syllables` equals `extract_syllable` at index 0, so the repository's
own expectations `("kl", "ɛi", "̯n")` (test_break_syllables) and
`("kl", "ɛi̯", "n")` (test_extract_syllable) contradict each other: no state
satisfies both tests, hence no state realizes the claimed list together with
its sibling fixture. -/
theorem c9_dutch_syllable_claim_fails :
    (break_syllables_marker_free ⟨[], []⟩ "klɛi̯ntjə".toList =
        some [("kl".toList, "ɛi".toList, "̯".toList),
              ("nt".toList, "ə".toList, "".toList)]) ∧
    (add_syllables ⟨[], []⟩ "klɛi̯ntjə".toList = some "klɛi̯.ntə".toList) ∧
    ([("kl".toList, "ɛi".toList, "̯".toList), ("nt".toList, "ə".toList, "".toList)] ≠
        [("kl".toList, "ɛi".toList, "̯n".toList), ("t".toList, "jə".toList, "".toList)]) ∧
    ("klɛi̯.ntə".toList ≠ "klɛi̯n.tjə".toList) ∧
    (∀ (st : PhonemeState) (l : List (List Char × List Char × List Char)),
        break_syllables_marker_free st "klɛi̯ntjə".toList = some l → l ≠ [] →
        extract_syllable_marker_free st "klɛi̯ntjə".toList 0 = l.head?) ∧
    ([("kl".toList, "ɛi".toList, "̯n".toList), ("t".toList, "jə".toList, "".toList)].head?
        ≠ some ("kl".toList, "ɛi̯".toList, "n".toList)) := by
  refine ⟨by decide, by decide, by decide, by decide, ?_, by decide⟩
  intro st l h hl
  unfold break_syllables_marker_free at h
  unfold extract_syllable_marker_free
  cases hs : split_syllables_marker_free st ("klɛi̯ntjə".toList) with
  | none => rw [hs] at h; exact absurd h (by simp)
  | some syls =>
      simp only [hs] at h ⊢
      cases syls with
      | nil =>
          rw [List.mapM_nil] at h
          exact absurd (Option.some.inj h).symm hl
      | cons s rest =>
          rw [List.mapM_cons] at h
          cases hb : break_syllable st s with
          | none => rw [hb] at h; simp at h
          | some t =>
              rw [hb] at h
              cases hr : rest.mapM (break_syllable st) with
              | none => rw [hr] at h; simp at h
              | some ts =>
                  rw [hr] at h
                  simp at h
                  subst h
                  simp [List.get?, hb]

/-- Closed instance of the universally quantified conjunct of the C9 theorem:
at the dictionary-free state, `extract_syllable` at index 0 returns the head
of the marker-free `break_syllables` list. -/
theorem c9_witness :
    extract_syllable_marker_free ⟨[], []⟩ "klɛi̯ntjə".toList 0 =
      ([("kl".toList, "ɛi".toList, "̯".toList),
        ("nt".toList, "ə".toList, "".toList)] :
          List (List Char × List Char × List Char)).head? :=
  c9_dutch_syllable_claim_fails.2.2.2.2.1 ⟨[], []⟩
    [("kl".toList, "ɛi".toList, "̯".toList), ("nt".toList, "ə".toList, "".toList)]
    (by decide) (by decide)

end Speechart
